import Mathlib

/-!
Verification of the hydrolysis analyzer core against its specification.

This file gives a shallow embedding, in Lean 4, of the parts of the
hydrolysis / polymer-analyzer code base that the specification's claims
are about, and proves (or refutes) each claim over that embedding.

Strings manipulated by the scanners are embedded as `List Char`; the JS
string operations (`indexOf`, `slice`, regular expression scans) are
translated to explicit recursion on those lists.
-/

namespace Hydrolysis

/-! ## Databinding expression scanner (src/polymer/expression-scanner.ts) -/

/-- The left curly brace character, written via its code point. -/
def curlyOpen : Char := '\x7b'

/-- The right curly brace character, written via its code point. -/
def curlyClose : Char := '\x7d'

/-- Embedding of the two-character window `str[j], str[j+1]` used when
searching for two-character delimiters. -/
def twoCharsAt (s : List Char) (j : Nat) : Option (Char × Char) :=
  match s.drop j with
  | c₁ :: c₂ :: _ => some (c₁, c₂)
  | _ => none

/-- True when a databinding opener (two left curly braces or two left square
brackets, the alternatives of the regular expression in
`findDatabindingInString`) starts at index `j`. -/
def isOpenerAt (s : List Char) (j : Nat) : Bool :=
  twoCharsAt s j == some (curlyOpen, curlyOpen) ||
    twoCharsAt s j == some ('[', '[')

/-- Embedding of `openers.exec(str)` with `lastIndex = i`: the least index
`j ≥ i` at which an opener starts, with the direction character (left curly
brace for a two-way binding, left square bracket for one-way), mirroring
`matchedOpeners === '{{' ? '{' : '['` in the source. -/
def findOpenerFrom (s : List Char) (i : Nat) : Option (Nat × Char) :=
  match (List.range s.length).find? (fun j => i ≤ j && isOpenerAt s j) with
  | none => none
  | some j =>
    some (j, if twoCharsAt s j == some (curlyOpen, curlyOpen) then curlyOpen else '[')

/-- Embedding of `str.indexOf(closers, startIndex)` for a two-character
search string `c₁c₂`: the least index `j ≥ i` at which it occurs, or none. -/
def indexOfPairFrom (s : List Char) (c₁ c₂ : Char) (i : Nat) : Option Nat :=
  (List.range s.length).find? (fun j => i ≤ j && twoCharsAt s j == some (c₁, c₂))

/-- The closer character corresponding to a direction character: a two-way
binding (curly direction) closes with right curly braces, a one-way binding
with right square brackets. -/
def closerFor (dir : Char) : Char :=
  if dir = curlyOpen then curlyClose else ']'

/-- Embedding of the `RawDatabinding` interface of the source. -/
structure RawDatabinding where
  expressionText : List Char
  startIndex : Nat
  endIndex : Nat
  direction : Char
deriving DecidableEq, Repr

/-- Embedding of the scan loop of `findDatabindingInString`, with `i` playing
the role of the mutable `lastIndex` of the global regular expression: find
the next opener at or after `i`; if there is none stop; otherwise look for
the matching closer after the opener; if there is none stop (the opener was
not a binding); otherwise record the raw databinding and continue right
after the closer.

The loop of the source terminates because `lastIndex` strictly increases on
every iteration and a match needs `lastIndex < str.length`; the `fuel`
argument makes that bound explicit, and the wrapper below supplies
`s.length` which therefore never runs out. -/
def findDatabindingFromAux : Nat → List Char → Nat → List RawDatabinding
  | 0, _, _ => []
  | fuel + 1, s, i =>
    match findOpenerFrom s i with
    | none => []
    | some (j, dir) =>
      match indexOfPairFrom s (closerFor dir) (closerFor dir) (j + 2) with
      | none => []
      | some endIndex =>
        { startIndex := j + 2
          endIndex := endIndex
          expressionText := (s.drop (j + 2)).take (endIndex - (j + 2))
          direction := dir } :: findDatabindingFromAux fuel s (endIndex + 2)

/-- Embedding of `findDatabindingInString`. -/
def findDatabindingInString (s : List Char) : List RawDatabinding :=
  findDatabindingFromAux s.length s 0

/-- Where a databinding assigns into, as classified by the scanner. -/
inductive DatabindingInto where
  | intoAttribute
  | intoStringInterpolation
deriving DecidableEq, Repr

/-- Embedding of `ScannedDatabindingExpression`, keeping the fields the
claims are about. The `startIndex`/`endIndex` pair stands for the source
range, which the source computes from exactly these two indexes via
`indexesToSourceRange`. -/
structure ScannedDatabindingExpression where
  direction : Char
  expressionText : List Char
  eventName : Option (List Char)
  databindingInto : DatabindingInto
  startIndex : Nat
  endIndex : Nat
deriving DecidableEq, Repr

/-- True when the two-character sequence `::` occurs at index `j` of `t`. -/
def isColonPairAt (t : List Char) (j : Nat) : Bool :=
  twoCharsAt t j == some (':', ':')

/-- The index of the last occurrence of `::` in `t`, if any. This is where
the greedy regular expression `(.*)::(.*)` of the source splits its match. -/
def lastColonPair (t : List Char) : Option Nat :=
  ((List.range t.length).filter (fun j => isColonPairAt t j)).getLast?

/-- A JavaScript line terminator: LF, CR, LS or PS. The dot of a
JavaScript regular expression matches any character except these. -/
def isLineTerm (c : Char) : Bool :=
  c = '\n' || c = '\r' || c = '\u2028' || c = '\u2029'

/-- The maximal line-terminator-free runs of `t`, in order: the spans
within which a single `.*` of a JavaScript regular expression can lie. -/
def splitLines : List Char → List (List Char)
  | [] => [[]]
  | c :: rest =>
    if isLineTerm c then [] :: splitLines rest
    else
      match splitLines rest with
      | [] => [[c]]
      | l :: ls => (c :: l) :: ls

/-- Embedding of the match of `expressionText.match(/(.*)::(.*)/)` in
`_extractDataBindingsFromAttr`. The dot does not match a line terminator,
so each group stays inside one terminator-free line and the whole match
lies in the first line that contains `::`; within that line the greedy
first group pushes the split to the last `::`. Without a line containing
`::` the match fails and the text is kept whole with no event name. -/
def carveEventName (t : List Char) : List Char × Option (List Char) :=
  match (splitLines t).find? (fun l => (lastColonPair l).isSome) with
  | none => (t, none)
  | some l =>
    match lastColonPair l with
    | none => (t, none)
    | some k => (l.take k, some (l.drop (k + 2)))

/-- Embedding of the body of `_extractDataBindingsFromAttr` for one raw
databinding found in an attribute value. -/
def attrDatabindingExpression (value : List Char) (db : RawDatabinding) :
    ScannedDatabindingExpression :=
  let isFullAttributeBinding := db.startIndex == 2 && db.endIndex + 2 == value.length
  let databindingInto :=
    if isFullAttributeBinding then DatabindingInto.intoAttribute
    else DatabindingInto.intoStringInterpolation
  let carved :=
    if db.direction = curlyOpen then carveEventName db.expressionText
    else (db.expressionText, none)
  { direction := db.direction
    expressionText := carved.1
    eventName := carved.2
    databindingInto := databindingInto
    startIndex := db.startIndex
    endIndex := db.endIndex }

/-- Embedding of `_extractDataBindingsFromAttr`: an empty attribute value is
skipped (`if (!attr.value) return`), otherwise each raw databinding of the
value is turned into a scanned expression. -/
def extractDataBindingsFromAttr (value : List Char) :
    List ScannedDatabindingExpression :=
  if value = [] then []
  else (findDatabindingInString value).map (attrDatabindingExpression value)

/-- Embedding of `_extractDataBindingsFromTextNode`: every databinding found
in a text node is recorded with no event name and with `databindingInto`
fixed to string interpolation, the expression text kept whole. -/
def extractDataBindingsFromTextNode (text : List Char) :
    List ScannedDatabindingExpression :=
  (findDatabindingInString text).map (fun db =>
    { direction := db.direction
      expressionText := db.expressionText
      eventName := none
      databindingInto := DatabindingInto.intoStringInterpolation
      startIndex := db.startIndex
      endIndex := db.endIndex })

/-- True when `pat` starts `s`. -/
def startsWithSeq : List Char → List Char → Bool
  | [], _ => true
  | _ :: _, [] => false
  | p :: ps, c :: cs => p == c && startsWithSeq ps cs

/-- True when `pat` occurs contiguously anywhere in `s`. -/
def containsSeq (pat s : List Char) : Bool :=
  (List.range (s.length + 1)).any (fun i => startsWithSeq pat (s.drop i))

/-! ## Filesystem URL loader (src/url-loader/fs-url-loader.ts)

The loader works on the record produced by the node `url.parse` function.
That parser returns the scheme in the `protocol` field lowercased and with
its trailing colon (for example `file:`), the `hostname` field as the empty
string for a URL such as `file:///p` and as the host text when one is
present, and the `pathname` field as the not-yet-decoded path. We embed
the parsed record directly. -/

/-- The node `Url` record, restricted to the fields `canLoad` reads. -/
structure ParsedUrl where
  protocol : Option String
  hostname : Option String
  pathname : Option String
deriving DecidableEq, Repr

/-- The numeric value of one hexadecimal digit, if it is one. -/
def hexVal (c : Char) : Option Nat :=
  if '0' ≤ c ∧ c ≤ '9' then some (c.toNat - '0'.toNat)
  else if 'a' ≤ c ∧ c ≤ 'f' then some (c.toNat - 'a'.toNat + 10)
  else if 'A' ≤ c ∧ c ≤ 'F' then some (c.toNat - 'A'.toNat + 10)
  else none

/-- Embedding of `decodeURIComponent` for the single-byte code points the
loader's paths use: a percent sign followed by two hexadecimal digits
becomes the character with that code. (The JS original raises a `URIError`
on a malformed escape; no claim exercises that case, and we keep the
malformed text unchanged.) -/
def percentDecode : List Char → List Char
  | [] => []
  | '%' :: h₁ :: h₂ :: rest =>
    (match hexVal h₁, hexVal h₂ with
     | some a, some b => Char.ofNat (16 * a + b) :: percentDecode rest
     | _, _ => '%' :: percentDecode (h₁ :: h₂ :: rest))
  | c :: rest => c :: percentDecode rest

/-- Splitting a character list on the slash character, with the same shape
as the JS `String.prototype.split('/')`: the empty list yields one empty
segment, and each slash separates two (possibly empty) segments. -/
def splitOnSlash : List Char → List (List Char)
  | [] => [[]]
  | '/' :: rest => [] :: splitOnSlash rest
  | c :: rest =>
    match splitOnSlash rest with
    | [] => [[c]]
    | seg :: segs => (c :: seg) :: segs

/-- One step of the segment walk of node's `normalizeString`: empty and dot
segments are dropped, a dot-dot segment pops the previous segment unless
there is none or it is itself a dot-dot, in which case it is kept only when
`allowAboveRoot` is set (that is, for relative paths). -/
def normStep (allowAboveRoot : Bool) (res : List (List Char)) (seg : List Char) :
    List (List Char) :=
  if seg = [] ∨ seg = ['.'] then res
  else if seg = ['.', '.'] then
    (if res ≠ [] ∧ res.getLast? ≠ some ['.', '.'] then res.dropLast
     else if allowAboveRoot then res ++ [seg]
     else res)
  else res ++ [seg]

/-- Embedding of the posix `path.normalize`: resolve dot and dot-dot
segments (keeping leading dot-dots only for relative paths), collapse
repeated slashes, keep a trailing slash, return a dot for an empty result
of a relative path and restore the leading slash of an absolute one. -/
def pathNormalize (p : List Char) : List Char :=
  if p = [] then ['.']
  else
    let isAbsolute := p.head? = some '/'
    let trailingSep := p.getLast? = some '/'
    let res := (splitOnSlash p).foldl (normStep (!isAbsolute)) []
    let joined := List.intercalate ['/'] res
    let p₁ := if joined = [] ∧ ¬ isAbsolute then ['.'] else joined
    let p₂ := if p₁ ≠ [] ∧ trailingSep then p₁ ++ ['/'] else p₁
    if isAbsolute then '/' :: p₂ else p₂

/-- Truthiness of the `hostname` field: JS treats both a missing field and
the empty string as falsy. -/
def hostnameTruthy : Option String → Bool
  | none => false
  | some h => !h.isEmpty

/-- Embedding of `FSUrlLoader._isValid`: note that the source compares the
parsed protocol against the bare word `file`, without the trailing colon
that `url.parse` always includes. -/
def fsIsValid (u : ParsedUrl) (pathname : List Char) : Bool :=
  (u.protocol == some "file" || !hostnameTruthy u.hostname) &&
    !startsWithSeq "../".toList pathname

/-- Embedding of `FSUrlLoader.canLoad`: normalize the percent-decoded
pathname and validate. -/
def fsCanLoad (u : ParsedUrl) : Bool :=
  fsIsValid u (pathNormalize (percentDecode (u.pathname.getD "").toList))

/-- The claim's predicate, following the spec's words: the URL is loadable
exactly when its scheme is the file scheme (which a parsed record carries
as the text `file:`) or it has no host, and the percent-decoded normalized
pathname does not escape the root. Kept separate so the divergence from
`fsCanLoad` can be exhibited. -/
def specCanLoad (u : ParsedUrl) : Bool :=
  (u.protocol == some "file:" || !hostnameTruthy u.hostname) &&
    !startsWithSeq "../".toList
      (pathNormalize (percentDecode (u.pathname.getD "").toList))

/-! ## Namespace scanner (src/polymer/namespace-scanner.ts)

The scanner itself is not among the sources; only its test is (in
src/unnamed/part_000). The definitions below are therefore modelled from
the specification. -/

/-- An assignment target as the scanner's limited evaluator sees it: a bare
identifier, a dotted member access, an array subscript with a literal
string key, or an array subscript whose key is not a literal. -/
inductive JsTarget where
  | ident (name : String)
  | member (obj : JsTarget) (prop : String)
  | indexLit (obj : JsTarget) (lit : String)
  | indexDyn (obj : JsTarget) (srcText : String)
deriving DecidableEq, Repr

/-- Modelled from the spec: the limited evaluator of §Design-notes, which
"folds string literals, simple member expressions, and array subscripts
with literal strings — nothing else"; a target containing a non-literal
subscript cannot be statically named. -/
def targetName : JsTarget → Option String
  | .ident n => some n
  | .member o p => (targetName o).map (fun s => s ++ "." ++ p)
  | .indexLit o l => (targetName o).map (fun s => s ++ "." ++ l)
  | .indexDyn _ _ => none

/-- True when the target contains a subscript whose key is not a string
literal. -/
def hasDynamicIndex : JsTarget → Bool
  | .ident _ => false
  | .member o _ => hasDynamicIndex o
  | .indexLit o _ => hasDynamicIndex o
  | .indexDyn _ _ => true

/-- A scanned namespace, reduced to the name the claims are about. -/
structure ScannedNamespaceM where
  name : String
deriving DecidableEq, Repr

/-- Modelled from the spec: the namespace scanner on one object-literal
assignment annotated with the namespace tag. The name comes from the tag's
own text when the author supplied one, else from folding the assignment
target; per §4.4 of the spec, "if the target cannot be statically named,
fail with an error carrying the source range" — and the scanner's test
asserts that this failure is a thrown error whose message matches
`Unable to determine name for @namespace`. -/
def scanNamespaceAssignment (jsdocName : Option String) (target : JsTarget) :
    Except String ScannedNamespaceM :=
  match jsdocName <|> targetName target with
  | some n => Except.ok { name := n }
  | none => Except.error "Unable to determine name for @namespace."

/-! ## Reference resolution (src/model/reference.ts) -/

/-- A source range, reduced to a pair of offsets; the claims only need its
presence or absence and its identity. -/
structure SourceRangeM where
  startOffset : Nat
  endOffset : Nat
deriving DecidableEq, Repr

/-- The warning severities of the model. -/
inductive SeverityM where
  | error
  | warning
  | info
deriving DecidableEq, Repr

/-- Embedding of the `Warning` record, restricted to the fields the claims
are about (the JS record also carries the parsed document, used only for
rendering). -/
structure WarningM where
  code : String
  message : String
  sourceRange : SourceRangeM
  severity : SeverityM
deriving DecidableEq, Repr

/-- A resolved feature for the reference-resolution model: its kind tags,
its identifiers, and a tag distinguishing features that share both. -/
structure RFeature where
  kinds : List String
  identifiers : List String
  tag : Nat
deriving DecidableEq, Repr

/-- The document as `resolveWithKind` queries it: its transitive feature
set in the deterministic traversal order, and the features declared at
each canonical statement (keyed by a statement identifier). -/
structure RefDocument where
  features : List RFeature
  statementFeatures : List (Nat × List RFeature)
deriving DecidableEq, Repr

/-- Embedding of `document.getFeatures({imported: true, externalPackages:
true, kind, id})`: the members of the transitive feature set carrying the
kind and the identifier, in traversal order. -/
def getFeaturesKindId (d : RefDocument) (kind id : String) : List RFeature :=
  d.features.filter (fun f => f.kinds.contains kind && f.identifiers.contains id)

/-- Embedding of `document.getFeatures({kind, statement})`: the features
declared at the statement which carry the kind. -/
def getFeaturesStatement (d : RefDocument) (kind : String) (st : Nat) :
    List RFeature :=
  ((d.statementFeatures.lookup st).getD []).filter (fun f => f.kinds.contains kind)

/-- The scope binding for an identifier: `esutil.getCanonicalStatement`
may or may not find a canonical statement for it. -/
structure BindingM where
  canonicalStatement : Option Nat
deriving DecidableEq, Repr

/-- Embedding of `resolveBinding` of src/model/reference.ts: no canonical
statement fails; a statement-scoped query succeeds only when it returns
exactly one feature. -/
def resolveBinding (b : BindingM) (d : RefDocument) (kind : String) :
    Option RFeature :=
  match b.canonicalStatement with
  | none => none
  | some st =>
    match getFeaturesStatement d kind st with
    | [f] => some f
    | _ => none

/-- Embedding of `ScannedReference`, with `binding` standing for the result
of `this.astPath.scope.getBinding(this.identifier)`. -/
structure ScannedReferenceM where
  kind : String
  identifier : String
  sourceRange : Option SourceRangeM
  warnings : List WarningM
  binding : Option BindingM
deriving DecidableEq, Repr

/-- Embedding of the resolved `Reference` record. -/
structure ReferenceM where
  identifier : String
  sourceRange : Option SourceRangeM
  feature : Option RFeature
  warnings : List WarningM
deriving DecidableEq, Repr

/-- The hint appended to the could-not-resolve message when the requested
kind is `behavior`. -/
def behaviorHint (kind : String) : String :=
  if kind = "behavior" then ". Is it annotated with @polymerBehavior?" else ""

/-- Embedding of `ScannedReference.resolveWithKind`: first the scope-based
resolution through the binding; if that fails, the global kind-and-id
query, with a warning pushed only when the scanned reference has a source
range, and the first query result (or nothing) as the referenced feature.
The function is total: it always returns a `ReferenceM`. -/
def resolveWithKind (r : ScannedReferenceM) (d : RefDocument) (kind : String) :
    ReferenceM :=
  match r.binding.bind (fun b => resolveBinding b d kind) with
  | some f =>
    { identifier := r.identifier, sourceRange := r.sourceRange,
      feature := some f, warnings := r.warnings }
  | none =>
    let features := getFeaturesKindId d kind r.identifier
    let newWarnings :=
      match r.sourceRange with
      | none => []
      | some sr =>
        if features.length = 0 then
          [{ code := "could-not-resolve-reference",
             message := "Could not resolve reference to " ++ r.kind ++ behaviorHint kind,
             sourceRange := sr, severity := SeverityM.warning }]
        else if 1 < features.length then
          [{ code := "multiple-global-declarations",
             message := "Multiple global declarations of " ++ r.kind ++
               " with identifier " ++ r.identifier,
             sourceRange := sr, severity := SeverityM.warning }]
        else []
    { identifier := r.identifier, sourceRange := r.sourceRange,
      feature := features.head?, warnings := r.warnings ++ newWarnings }

/-! ## Document graph, resolution and the query index (src/model/document.ts)

Documents are kept in a per-analysis map keyed by resolved URL, as the
analysis context does. A `DocFeature` stands for a resolved feature object;
structural equality of the embedded records stands for the object identity
that the JS `Set`s deduplicate on, so features carry a numeric tag where
two distinct objects could otherwise be equal. -/

/-- Resolved URLs, the keys of the per-analysis document map. -/
abbrev Url := String

/-- The scanned features of a document that resolution walks: a plain
resolvable feature, a scanned import (resolving to an `Import` pointing at
the target document), and an inline child document. -/
inductive ScannedFeat where
  | simple (kinds ids : List String) (tag : Nat)
  | imp (ty : String) (target : Url) (tag : Nat)
  | inline (target : Url)
deriving DecidableEq, Repr

/-- A resolved feature as stored in a document's local feature set: a plain
feature with its kind tags and identifiers, an `Import` (whose kinds are
`import` and its own type, with no identifiers), or a `Document` appearing
as a feature (the document itself, or an inline child). -/
inductive DocFeature where
  | plain (kinds ids : List String) (tag : Nat)
  | imp (ty : String) (target : Url) (tag : Nat)
  | docRef (url : Url)
deriving DecidableEq, Repr

/-- The per-document state: the constructor data (type, inline flag,
scanned features) and the mutable fields of the `Document` class — the two
resolution flags, the local feature set, and the two lazily built indexes
(associative lists standing for the JS `Map`s, preserving insertion
order). -/
structure DocState where
  docType : String
  isInline : Bool
  scannedFeatures : List ScannedFeat
  begunResolving : Bool
  doneResolving : Bool
  localFeatures : List DocFeature
  featuresByKind : Option (List (String × List DocFeature))
  featuresByKindAndId : Option (List (String × List (String × List DocFeature)))
deriving DecidableEq, Repr

/-- The analyzer's per-analysis map from resolved URL to document. -/
structure AnalyzerState where
  docs : List (Url × DocState)
deriving DecidableEq, Repr

/-- Document lookup in the per-analysis map. -/
def getDoc (s : AnalyzerState) (u : Url) : Option DocState :=
  s.docs.lookup u

/-- One entry of the map update: apply `f` to the document stored under
`u`, leave other entries unchanged. -/
def updateEntry (u : Url) (f : DocState → DocState) (p : Url × DocState) :
    Url × DocState :=
  if p.1 = u then (p.1, f p.2) else p

/-- Replace the document at `u` by applying `f` to it. -/
def updateDoc (s : AnalyzerState) (u : Url) (f : DocState → DocState) :
    AnalyzerState :=
  ⟨s.docs.map (updateEntry u f)⟩

/-- The kinds of a feature: a document answers to `document` and to its
type-specific document kind, an import to `import` and its own type. -/
def featureKinds (s : AnalyzerState) : DocFeature → List String
  | .plain ks _ _ => ks
  | .imp ty _ _ => ["import", ty]
  | .docRef u =>
    match getDoc s u with
    | none => ["document"]
    | some d => ["document", d.docType ++ "-document"]

/-- The identifiers of a feature: a non-inline document is identified by
its URL, an import has none. -/
def featureIds (s : AnalyzerState) : DocFeature → List String
  | .plain _ ids _ => ids
  | .imp _ _ _ => []
  | .docRef u =>
    match getDoc s u with
    | none => []
    | some d => if d.isInline then [] else [u]

/-- Adding to a JS `Set` embedded as a list: keep insertion order, ignore a
member already present. -/
def addToSet (f : DocFeature) (l : List DocFeature) : List DocFeature :=
  if f ∈ l then l else l ++ [f]

/-- The JS `map.get(k) || new D` / mutate / `map.set(k, …)` idiom on an
associative list: update the entry in place, or append a new one built
from the default `d`. -/
def assocUpdate {β : Type} (k : String) (d : β) (f : β → β)
    (m : List (String × β)) : List (String × β) :=
  match m.lookup k with
  | some _ => m.map (fun p => if p.1 = k then (p.1, f p.2) else p)
  | none => m ++ [(k, f d)]

/-- Embedding of `_indexFeature`: a no-op while the indexes are unbuilt;
otherwise record the feature under each of its kinds, and under each
(kind, identifier) pair. -/
def indexFeatureD (s : AnalyzerState) (f : DocFeature) (d : DocState) : DocState :=
  match d.featuresByKind, d.featuresByKindAndId with
  | some fbk, some fbki =>
    { d with
      featuresByKind :=
        some ((featureKinds s f).foldl (fun m k => assocUpdate k [] (addToSet f) m) fbk)
      featuresByKindAndId :=
        some ((featureKinds s f).foldl
          (fun m k =>
            assocUpdate k [] (fun idm =>
              (featureIds s f).foldl (fun idm i => assocUpdate i [] (addToSet f) idm) idm) m)
          fbki) }
  | _, _ => d

/-- Embedding of `_addFeature` on the document at `u`: index the feature
(a no-op before the indexes exist) and add it to the local feature set. -/
def addFeature (s : AnalyzerState) (u : Url) (f : DocFeature) : AnalyzerState :=
  updateDoc s u (fun d =>
    let d' := indexFeatureD s f d
    { d' with localFeatures := addToSet f d'.localFeatures })

/-- Set the `_begunResolving` flag of the document at `u`. -/
def beginDoc (s : AnalyzerState) (u : Url) : AnalyzerState :=
  updateDoc s u (fun d => { d with begunResolving := true })

/-- Set the `_doneResolving` flag of the document at `u`. -/
def markDone (s : AnalyzerState) (u : Url) : AnalyzerState :=
  updateDoc s u (fun d => { d with doneResolving := true })

/-- The number of documents that have not begun resolving; the measure that
bounds the depth of resolution recursion. -/
def countUnbegun (s : AnalyzerState) : Nat :=
  (s.docs.filter (fun p => !p.2.begunResolving)).length

/-- The local features of the document at `v`, empty when absent. -/
def localFeats (s : AnalyzerState) (v : Url) : List DocFeature :=
  match getDoc s v with
  | some d => d.localFeatures
  | none => []

/-- The relation between a state and any state reached from it by
resolution steps: the document map keeps its size, the unbegun count never
grows, no document disappears, and local features are only ever added. -/
def StepOk (s s' : AnalyzerState) : Prop :=
  s'.docs.length = s.docs.length ∧
  countUnbegun s' ≤ countUnbegun s ∧
  (∀ v, (getDoc s v).isSome = true → (getDoc s' v).isSome = true) ∧
  (∀ v f, f ∈ localFeats s v → f ∈ localFeats s' v)

/-- One step of the resolution walk over a document's scanned features,
parameterized by the resolver used for import targets. A plain feature
resolves to itself; a scanned import or inline child looks the target up
in the per-analysis map (modelled from the spec: the context allocates all
documents before any resolve step, and an import's `resolve` finds the
target there even when it is not yet done); a missing target resolves to
nothing and is skipped; a target neither begun nor done is resolved first.
An error or exhausted-fuel outcome short-circuits the rest of the walk. -/
def resolveFeatStep (res : AnalyzerState → Url → Option (Except String AnalyzerState))
    (u : Url) (acc : Option (Except String AnalyzerState)) (f : ScannedFeat) :
    Option (Except String AnalyzerState) :=
  match acc with
  | some (Except.ok s) =>
    (match f with
     | .simple ks ids tag => some (Except.ok (addFeature s u (.plain ks ids tag)))
     | .imp ty target tag =>
       (match getDoc s target with
        | none => some (Except.ok s)
        | some dt =>
          if dt.begunResolving || dt.doneResolving then
            some (Except.ok (addFeature s u (.imp ty target tag)))
          else
            match res s target with
            | some (Except.ok s') => some (Except.ok (addFeature s' u (.imp ty target tag)))
            | r => r)
     | .inline target =>
       (match getDoc s target with
        | none => some (Except.ok s)
        | some dt =>
          if dt.begunResolving || dt.doneResolving then
            some (Except.ok (addFeature s u (.docRef target)))
          else
            match res s target with
            | some (Except.ok s') => some (Except.ok (addFeature s' u (.docRef target)))
            | r => r))
  | r => r

/-- Embedding of `Document.resolve`: a document already done throws (the
fatal precondition error); a document begun but not done returns at once,
unchanged (the cycle guard); otherwise set `_begunResolving`, add the
document itself as a feature, resolve every scanned feature in order, and
set `_doneResolving`. The recursion into not-yet-resolved import targets is
bounded by `fuel`; the exhausted-fuel outcome is the `none` value, which
the adequacy theorem shows unreachable from the wrapper below. -/
def resolveDoc : Nat → AnalyzerState → Url → Option (Except String AnalyzerState)
  | 0, _, _ => none
  | fuel + 1, s, u =>
    match getDoc s u with
    | none => some (Except.ok s)
    | some d =>
      if d.doneResolving then some (Except.error "resolve can only be called once")
      else if d.begunResolving then some (Except.ok s)
      else
        let s₂ := addFeature (beginDoc s u) u (.docRef u)
        match d.scannedFeatures.foldl (resolveFeatStep (resolveDoc fuel) u)
            (some (Except.ok s₂)) with
        | some (Except.ok s₃) => some (Except.ok (markDone s₃ u))
        | r => r

/-- The resolution entry point: every document map can hold at most
`docs.length` documents that have not begun resolving, so that plus one is
always enough fuel. -/
def resolveDocument (s : AnalyzerState) (u : Url) : Option (Except String AnalyzerState) :=
  resolveDoc (s.docs.length + 1) s u

/-- Embedding of `_getFeatures` (the deep walk): skip an already visited
document, otherwise mark it visited and add every local feature, recursing
into inline child documents and import targets. The accumulator pair is
(result set, visited set). -/
def getFeaturesDoc : Nat → AnalyzerState → Url → (List DocFeature × List Url) →
    (List DocFeature × List Url)
  | 0, _, _, acc => acc
  | fuel + 1, s, u, (acc, vis) =>
    if u ∈ vis then (acc, vis)
    else
      match getDoc s u with
      | none => (acc, vis ++ [u])
      | some d =>
        d.localFeatures.foldl (fun (p : List DocFeature × List Url) f =>
          let p₁ := (addToSet f p.1, p.2)
          match f with
          | .docRef t => getFeaturesDoc fuel s t p₁
          | .imp _ t _ => getFeaturesDoc fuel s t p₁
          | .plain _ _ _ => p₁) (acc, vis ++ [u])

/-- Embedding of `getFeatures()` (deep): the walked feature set of the
document at `u`. -/
def getFeatures (s : AnalyzerState) (u : Url) : List DocFeature :=
  (getFeaturesDoc (s.docs.length + 1) s u ([], [])).1

/-- Embedding of `_getByKind`: mark this document walked, then for each
local feature add it if it carries the kind, and union in the recursive
walk of import targets and document-valued features not yet walked. -/
def getByKindDoc : Nat → AnalyzerState → String → Url → List Url →
    (List DocFeature × List Url)
  | 0, _, _, _, vis => ([], vis)
  | fuel + 1, s, kind, u, vis =>
    match getDoc s u with
    | none => ([], vis ++ [u])
    | some d =>
      d.localFeatures.foldl (fun (p : List DocFeature × List Url) f =>
        let p₁ := if (featureKinds s f).contains kind then (addToSet f p.1, p.2) else p
        match f with
        | .imp _ t _ =>
          if t ∈ p₁.2 then p₁
          else
            (let q := getByKindDoc fuel s kind t p₁.2
             (q.1.foldl (fun acc g => addToSet g acc) p₁.1, q.2))
        | .docRef t =>
          if t ∈ p₁.2 then p₁
          else
            (let q := getByKindDoc fuel s kind t p₁.2
             (q.1.foldl (fun acc g => addToSet g acc) p₁.1, q.2))
        | .plain _ _ _ => p₁) ([], vis ++ [u])

/-- Lookup in the by-kind index. -/
def lookupFbk (fbk : List (String × List DocFeature)) (kind : String) :
    List DocFeature :=
  (fbk.lookup kind).getD []

/-- Lookup in the by-kind-and-id index. -/
def lookupFbki (fbki : List (String × List (String × List DocFeature)))
    (kind id : String) : List DocFeature :=
  ((((fbki.lookup kind).getD []).lookup id).getD [])

/-- The index construction of `_buildIndexes` after its two guards: start
both indexes empty and index every feature of the deep walk. -/
def buildIndexesCore (s : AnalyzerState) (u : Url) : AnalyzerState :=
  let feats := getFeatures s u
  updateDoc s u (fun d =>
    feats.foldl (fun d f => indexFeatureD s f d)
      { d with featuresByKind := some [], featuresByKindAndId := some [] })

/-- Embedding of `_buildIndexes`: building twice is an error, building
before the document is done resolving is an error, otherwise build both
indexes from the deep feature walk. -/
def buildIndexes (s : AnalyzerState) (u : Url) : Except String AnalyzerState :=
  match getDoc s u with
  | none => Except.ok s
  | some d =>
    if d.featuresByKind.isSome then
      Except.error "Tried to build indexes multiple times. This should never happen."
    else if !d.doneResolving then
      Except.error "Tried to build indexes before finished resolving."
    else Except.ok (buildIndexesCore s u)

/-- Embedding of `Document.getByKind`: use the fast index when built; if
the document is done resolving build the indexes first (the recursive
self-call of the source then reads the just-built index, inlined here);
otherwise fall back to the traversal. The state is returned alongside the
result because building the indexes mutates the document. -/
def getByKindS (s : AnalyzerState) (u : Url) (kind : String) :
    List DocFeature × AnalyzerState :=
  match getDoc s u with
  | none => ([], s)
  | some d =>
    match d.featuresByKind with
    | some fbk => (lookupFbk fbk kind, s)
    | none =>
      if d.doneResolving then
        let s' := buildIndexesCore s u
        ((match getDoc s' u with
          | some d' =>
            (match d'.featuresByKind with
             | some fbk => lookupFbk fbk kind
             | none => [])
          | none => []), s')
      else ((getByKindDoc (s.docs.length + 1) s kind u []).1, s)

/-- Embedding of `Document.getById`: use the fast index when built; if the
document is done resolving build the indexes first; otherwise filter the
kind traversal by identifier. -/
def getByIdS (s : AnalyzerState) (u : Url) (kind id : String) :
    List DocFeature × AnalyzerState :=
  match getDoc s u with
  | none => ([], s)
  | some d =>
    match d.featuresByKindAndId with
    | some fbki => (lookupFbki fbki kind id, s)
    | none =>
      if d.doneResolving then
        let s' := buildIndexesCore s u
        ((match getDoc s' u with
          | some d' =>
            (match d'.featuresByKindAndId with
             | some fbki => lookupFbki fbki kind id
             | none => [])
          | none => []), s')
      else
        let (byKind, s₁) := getByKindS s u kind
        (byKind.filter (fun f => (featureIds s f).contains id), s₁)

/-- Embedding of `Document.getOnlyAtId`: more than one match throws; else
the single match, or nothing. -/
def getOnlyAtId (s : AnalyzerState) (u : Url) (kind id : String) :
    Except String (Option DocFeature × AnalyzerState) :=
  let (results, s') := getByIdS s u kind id
  if 1 < results.length then
    Except.error ("Expected to find at most one " ++ kind ++ " with id " ++ id ++
      " but found " ++ toString results.length ++ ".")
  else Except.ok (results.head?, s')

/-! ## URL resolver (src/url-loader/url-resolver.ts)

`simpleUrlRelative` works on the records produced by the node `url.parse`
function, computes a posix relative path between the two pathnames, and
formats the result; `simpleUrlResolve` hands the formatted reference to the
node `url.resolve` function. We embed the parsed record directly, with a
pathname stored as its slash-separated segment list and each segment as a
character list (the file's string embedding): the string form of a segment
list is the segments joined by slashes, so `/a/b` is four segments
`[[], [a], [b]]`-style with a leading empty root segment, a trailing slash
is a trailing empty segment, and the empty string is the empty list. The
formatted relative reference (path plus optional query and fragment) is
likewise kept as a record: re-parsing the formatted string recovers
exactly these components, since path segments contain no query or
fragment markers. -/

/-- A pathname segment: the characters between two slashes. -/
abbrev PathSeg := List Char

/-- The node `Url` record as the relative computation reads it (`slashes`
is a boolean or missing, the rest are strings or missing). -/
structure UrlRecord where
  protocol : Option String
  slashes : Option Bool
  auth : Option String
  host : Option String
  pathname : Option (List PathSeg)
  search : Option String
  hash : Option String
deriving DecidableEq, Repr

/-- A file-relative URL as `relative` returns it: either the `to` URL
passed through whole (the conflicting-components case), or a formatted
relative reference made of a pathname, a query and a fragment. -/
inductive FileRelUrl where
  | full (u : UrlRecord)
  | rel (pathname : List PathSeg) (search : Option String) (hash : Option String)
deriving DecidableEq, Repr

/-- The pathname component of a relative reference (empty for a passed
through full URL). -/
def relPathname : FileRelUrl → List PathSeg
  | .full _ => []
  | .rel p _ _ => p

/-- The directory of a pathname: the node `replace` of the trailing
non-slash run with nothing — drop a trailing named segment, keep the
trailing slash. -/
def dirOf (p : List PathSeg) : List PathSeg :=
  match p.getLast? with
  | some [] => p
  | some _ => p.dropLast ++ [[]]
  | none => p

/-- One step of the posix `path.resolve` segment walk for absolute paths:
empty and dot segments vanish, dot-dot pops (never above root). -/
def resolveStep (res : List PathSeg) (seg : PathSeg) : List PathSeg :=
  if seg = [] ∨ seg = ['.'] then res
  else if seg = ['.', '.'] then res.dropLast
  else res ++ [seg]

/-- The posix `path.resolve` of an absolute path, as `path.relative`
applies it to both of its arguments: the result keeps the leading root
segment and has no trailing empty segment. (`path.relative` would resolve
a relative argument against the working directory; the resolver only hands
it absolute pathnames.) -/
def resolveAbs (segs : List PathSeg) : List PathSeg :=
  [] :: segs.foldl resolveStep []

/-- The length of the longest common prefix of two lists. -/
def commonLen {α : Type} [DecidableEq α] : List α → List α → Nat
  | a :: as, b :: bs => if a = b then commonLen as bs + 1 else 0
  | _, _ => 0

/-- The posix `path.relative`: resolve both paths, drop their common
prefix, climb out of what remains of `fromP` and descend into what remains
of `toP`. The empty result (for equal paths) is the empty list. -/
def posixRelative (fromP toP : List PathSeg) : List PathSeg :=
  let f := resolveAbs fromP
  let t := resolveAbs toP
  let c := commonLen f t
  List.replicate (f.length - c) ['.', '.'] ++ t.drop c

/-- Append the sentinel underscore of the source to the final segment of a
pathname (the `toDir + '_'` trick that preserves a trailing slash). -/
def appendUnderscore (p : List PathSeg) : List PathSeg :=
  match p.getLast? with
  | none => [['_']]
  | some s => p.dropLast ++ [s ++ ['_']]

/-- Strip one trailing underscore from the final segment, the
`replace` of a final underscore with nothing of the source. -/
def stripUnderscore (p : List PathSeg) : List PathSeg :=
  match p.getLast? with
  | none => []
  | some s =>
    if s.getLast? = some '_' then p.dropLast ++ [s.dropLast] else p

/-- Embedding of `UrlResolver.simpleUrlRelative`: pass `to` through whole
when a present component of it conflicts with `from`; return the empty
reference (keeping the query and fragment of `to`) when the pathnames
agree; otherwise the posix relative path from the directory of `from` to
the pathname of `to`, computed with the underscore sentinel so that a
trailing slash survives. A reference whose only segment is empty formats
as the empty string, whose parse has no pathname — the same normal form as
the empty segment list. -/
def simpleUrlRelative (fromU toU : UrlRecord) : FileRelUrl :=
  if (toU.protocol.isSome ∧ fromU.protocol ≠ toU.protocol) ∨
      (toU.slashes.isSome ∧ fromU.slashes ≠ toU.slashes) ∨
      (toU.host.isSome ∧ fromU.host ≠ toU.host) ∨
      (toU.auth.isSome ∧ fromU.auth ≠ toU.auth) then
    FileRelUrl.full toU
  else if fromU.pathname = toU.pathname then
    FileRelUrl.rel [] toU.search toU.hash
  else
    let fromDir := match fromU.pathname with
      | some p => dirOf p
      | none => []
    let toDir := match toU.pathname with
      | some p => p
      | none => []
    let raw := stripUnderscore (posixRelative fromDir (appendUnderscore toDir))
    FileRelUrl.rel (if raw = [[]] then [] else raw) toU.search toU.hash

/-- The segment-removal loop of the node `url.resolve`, processed from the
end of the reversed path with a climb counter: dots vanish, dot-dots climb,
a climbed-over segment vanishes; leftover climbs above an absolute root are
discarded. -/
def removeDotsRev : List PathSeg → Nat → List PathSeg
  | [], _ => []
  | s :: rest, up =>
    if s = ['.'] then removeDotsRev rest up
    else if s = ['.', '.'] then removeDotsRev rest (up + 1)
    else if 0 < up then removeDotsRev rest (up - 1)
    else s :: removeDotsRev rest up

/-- Dot-segment removal on a path in source order. -/
def removeDots (l : List PathSeg) : List PathSeg :=
  (removeDotsRev l.reverse 0).reverse

/-- The path-merging branch of the node `url.resolve`: drop the final
segment of the base path, append the segments of the reference, remove dot
segments, restore a trailing slash when the raw merge ended in a dot-ish
or empty segment, and keep the result rooted. -/
def mergePaths (basePath segs : List PathSeg) : List PathSeg :=
  let src := basePath.dropLast ++ segs
  let hasTrail := src.getLast? = some [] ∨ src.getLast? = some ['.'] ∨
    src.getLast? = some ['.', '.']
  let cleaned := removeDots src
  let cleaned₂ :=
    if hasTrail ∧ cleaned.getLast? ≠ some [] then cleaned ++ [[]] else cleaned
  if cleaned₂.head? = some [] then cleaned₂ else [] :: cleaned₂

/-- Embedding of the node `url.resolve` for the references `relative`
produces: a reference that is itself a full URL wins; an empty reference
keeps the base path, keeps the base query unless the reference has one,
and takes the fragment of the reference; a rooted reference replaces the
path; any other reference merges with the base directory. -/
def urlLibResolve (base : UrlRecord) (r : FileRelUrl) : UrlRecord :=
  match r with
  | .full u => u
  | .rel segs search hash =>
    if segs = [] then
      { base with search := (if search.isSome then search else base.search),
                  hash := hash }
    else if segs.head? = some [] then
      { base with pathname := some (removeDots segs), search := search, hash := hash }
    else
      { base with
        pathname := some (mergePaths (base.pathname.getD []) segs),
        search := search, hash := hash }

/-- Embedding of `UrlResolver.simpleUrlResolve`. -/
def simpleUrlResolve (url : FileRelUrl) (baseUrl : UrlRecord) : UrlRecord :=
  urlLibResolve baseUrl url

/-- A pathname segment a normalized path may contain between its slashes. -/
def isNormalSeg (s : PathSeg) : Bool :=
  !(s = [] || s = ['.'] || s = ['.', '.'])

/-- An absolute, normalized pathname: a leading root segment, named
segments free of empty and dot segments, and optionally a trailing empty
segment (a trailing slash). -/
def absNormalPath (p : List PathSeg) : Bool :=
  match p with
  | [] :: rest =>
    rest ≠ [] &&
      (if rest.getLast? = some [] then rest.dropLast else rest).all isNormalSeg
  | _ => false

/-- Example state: two documents importing each other (the cyclic import
graph of the spec's boundary scenario). -/
def cycState : AnalyzerState :=
  ⟨[("a", ⟨"html", false, [ScannedFeat.imp "html-import" "b" 0], false, false, [], none, none⟩),
    ("b", ⟨"html", false, [ScannedFeat.imp "html-import" "a" 0], false, false, [], none, none⟩)]⟩

/-- Example state: one already resolved document. -/
def doneState : AnalyzerState :=
  ⟨[("a", ⟨"html", false, [], true, true, [DocFeature.docRef "a"], none, none⟩)]⟩

/-- Example state: one document mid-resolution. -/
def begunState : AnalyzerState :=
  ⟨[("a", ⟨"html", false, [], true, false, [DocFeature.docRef "a"], none, none⟩)]⟩

/-- Example state: a resolved document holding one element feature. -/
def oneElementState : AnalyzerState :=
  ⟨[("a", ⟨"html", false, [], true, true,
      [DocFeature.docRef "a", DocFeature.plain ["element"] ["x-el"] 0], none, none⟩)]⟩

/-- Example state: a resolved document holding two element features that
share an identifier. -/
def twoElementState : AnalyzerState :=
  ⟨[("a", ⟨"html", false, [], true, true,
      [DocFeature.docRef "a", DocFeature.plain ["element"] ["x-el"] 0,
        DocFeature.plain ["element"] ["x-el"] 1], none, none⟩)]⟩

/-! ## Supporting lemmas -/

theorem updateEntry_pos {u : Url} {f : DocState → DocState} {k : Url} {dv : DocState}
    (h : k = u) : updateEntry u f (k, dv) = (k, f dv) := by
  simp [updateEntry, h]

theorem updateEntry_neg {u : Url} {f : DocState → DocState} {k : Url} {dv : DocState}
    (h : ¬ k = u) : updateEntry u f (k, dv) = (k, dv) := by
  simp [updateEntry, h]

theorem lookup_map_update {l : List (Url × DocState)} {u : Url}
    {f : DocState → DocState} :
    (l.map (updateEntry u f)).lookup u = (l.lookup u).map f := by
  induction l with
  | nil => rfl
  | cons p t ih =>
    rcases p with ⟨k, dv⟩
    by_cases h : k = u
    · subst h
      rw [List.map_cons, updateEntry_pos rfl]
      simp [List.lookup, ih]
    · have hbeq : (u == k) = false := by
        simp only [beq_eq_false_iff_ne]; exact fun he => h he.symm
      rw [List.map_cons, updateEntry_neg h]
      simp [List.lookup, hbeq, ih]

theorem lookup_map_update_ne {l : List (Url × DocState)} {u v : Url}
    {f : DocState → DocState} (hne : v ≠ u) :
    (l.map (updateEntry u f)).lookup v = l.lookup v := by
  induction l with
  | nil => rfl
  | cons p t ih =>
    rcases p with ⟨k, dv⟩
    by_cases h : k = u
    · subst h
      have hbeq : (v == k) = false := by simpa using hne
      rw [List.map_cons, updateEntry_pos rfl]
      simp [List.lookup, hbeq, ih]
    · rw [List.map_cons, updateEntry_neg h]
      cases hbeq : v == k <;> simp [List.lookup, hbeq, ih]

theorem getDoc_updateDoc_self {s : AnalyzerState} {u : Url} {f : DocState → DocState} :
    getDoc (updateDoc s u f) u = (getDoc s u).map f :=
  lookup_map_update

theorem getDoc_updateDoc_ne {s : AnalyzerState} {u v : Url} {f : DocState → DocState}
    (h : v ≠ u) : getDoc (updateDoc s u f) v = getDoc s v :=
  lookup_map_update_ne h

theorem updateDoc_docs_length {s : AnalyzerState} {u : Url} {f : DocState → DocState} :
    (updateDoc s u f).docs.length = s.docs.length := by
  simp [updateDoc]

theorem countUnbegun_le {s : AnalyzerState} : countUnbegun s ≤ s.docs.length :=
  List.length_filter_le _ _

theorem countUnbegun_updateDoc_eq {s : AnalyzerState} {u : Url}
    {f : DocState → DocState}
    (hf : ∀ d, (f d).begunResolving = d.begunResolving) :
    countUnbegun (updateDoc s u f) = countUnbegun s := by
  unfold countUnbegun updateDoc
  simp only
  induction s.docs with
  | nil => rfl
  | cons p t ih =>
    rcases p with ⟨k, dv⟩
    by_cases h : k = u
    · rw [List.map_cons, updateEntry_pos h]
      simp only [List.filter_cons, hf]
      cases hb : !dv.begunResolving <;> simp [ih]
    · rw [List.map_cons, updateEntry_neg h]
      simp only [List.filter_cons]
      cases hb : !dv.begunResolving <;> simp [ih]

theorem filter_length_map_le {g : Url × DocState → Url × DocState}
    {q : Url × DocState → Bool}
    (hpt : ∀ p, q (g p) = true → q p = true) :
    ∀ l : List (Url × DocState),
      ((l.map g).filter q).length ≤ (l.filter q).length := by
  intro l
  induction l with
  | nil => exact Nat.le_refl _
  | cons p t ih =>
    simp only [List.map_cons, List.filter_cons]
    cases hq : q (g p)
    · cases hq' : q p
      · simpa using ih
      · simp only [Bool.false_eq_true, if_false, if_true, List.length_cons]
        exact Nat.le_succ_of_le ih
    · rw [hpt p hq]
      simpa using Nat.succ_le_succ ih

theorem beginEntry_unbegun {u : Url} (p : Url × DocState)
    (hqp : (!(updateEntry u (fun d => { d with begunResolving := true }) p).2.begunResolving) = true) :
    (!p.2.begunResolving) = true := by
  rcases p with ⟨k, dv⟩
  by_cases h : k = u
  · rw [updateEntry_pos h] at hqp
    simp at hqp
  · rwa [updateEntry_neg h] at hqp

theorem countList_begin_lt :
    ∀ (l : List (Url × DocState)) (u : Url) (d : DocState),
      l.lookup u = some d → d.begunResolving = false →
      ((l.map (updateEntry u (fun d => { d with begunResolving := true }))).filter
          (fun p => !p.2.begunResolving)).length <
        (l.filter (fun p => !p.2.begunResolving)).length := by
  intro l
  induction l with
  | nil => intro u d hd _; simp [List.lookup] at hd
  | cons p t ih =>
    intro u d hd hb
    rcases p with ⟨k, dv⟩
    by_cases h : k = u
    · subst h
      have hdv : dv = d := by simpa [List.lookup] using hd
      subst hdv
      rw [List.map_cons, updateEntry_pos rfl]
      simp only [List.filter_cons, hb]
      have hle := filter_length_map_le
        (g := updateEntry k (fun d => { d with begunResolving := true }))
        (q := fun p => !p.2.begunResolving)
        (fun p hqp => beginEntry_unbegun p hqp) t
      simp only [Bool.not_false, Bool.not_true, Bool.false_eq_true, eq_self_iff_true,
        if_false, if_true, List.length_cons]
      omega
    · have hbeq : (u == k) = false := by
        simp only [beq_eq_false_iff_ne]; exact fun he => h he.symm
      have hd2 : t.lookup u = some d := by simpa [List.lookup, hbeq] using hd
      have := ih u d hd2 hb
      rw [List.map_cons, updateEntry_neg h]
      simp only [List.filter_cons]
      cases hb2 : !dv.begunResolving <;>
        simp only [Bool.false_eq_true, eq_self_iff_true, if_false, if_true,
          List.length_cons] <;> omega

theorem countUnbegun_beginDoc_le {s : AnalyzerState} {u : Url} :
    countUnbegun (beginDoc s u) ≤ countUnbegun s := by
  unfold beginDoc countUnbegun updateDoc
  exact filter_length_map_le (fun p hqp => beginEntry_unbegun p hqp) s.docs

theorem countUnbegun_beginDoc_lt {s : AnalyzerState} {u : Url} {d : DocState}
    (hd : getDoc s u = some d) (hb : d.begunResolving = false) :
    countUnbegun (beginDoc s u) < countUnbegun s := by
  unfold beginDoc countUnbegun updateDoc
  exact countList_begin_lt s.docs u d hd hb

theorem mem_addToSet_self {f : DocFeature} {l : List DocFeature} :
    f ∈ addToSet f l := by
  unfold addToSet
  split
  · assumption
  · simp

theorem mem_addToSet_of_mem {f g : DocFeature} {l : List DocFeature}
    (h : g ∈ l) : g ∈ addToSet f l := by
  unfold addToSet
  split
  · exact h
  · exact List.mem_append_left _ h

theorem indexFeatureD_begun {s : AnalyzerState} {f : DocFeature} {d : DocState} :
    (indexFeatureD s f d).begunResolving = d.begunResolving := by
  obtain ⟨ty, inl, sc, bg, dn, lf, fbk, fbki⟩ := d
  unfold indexFeatureD
  cases fbk <;> cases fbki <;> rfl

theorem indexFeatureD_done {s : AnalyzerState} {f : DocFeature} {d : DocState} :
    (indexFeatureD s f d).doneResolving = d.doneResolving := by
  obtain ⟨ty, inl, sc, bg, dn, lf, fbk, fbki⟩ := d
  unfold indexFeatureD
  cases fbk <;> cases fbki <;> rfl

theorem indexFeatureD_localFeatures {s : AnalyzerState} {f : DocFeature} {d : DocState} :
    (indexFeatureD s f d).localFeatures = d.localFeatures := by
  obtain ⟨ty, inl, sc, bg, dn, lf, fbk, fbki⟩ := d
  unfold indexFeatureD
  cases fbk <;> cases fbki <;> rfl

theorem indexFeatureD_fbk_isSome {s : AnalyzerState} {f : DocFeature} {d : DocState} :
    (indexFeatureD s f d).featuresByKind.isSome = d.featuresByKind.isSome := by
  obtain ⟨ty, inl, sc, bg, dn, lf, fbk, fbki⟩ := d
  unfold indexFeatureD
  cases fbk <;> cases fbki <;> rfl

theorem indexFeatureD_fbki_isSome {s : AnalyzerState} {f : DocFeature} {d : DocState} :
    (indexFeatureD s f d).featuresByKindAndId.isSome = d.featuresByKindAndId.isSome := by
  obtain ⟨ty, inl, sc, bg, dn, lf, fbk, fbki⟩ := d
  unfold indexFeatureD
  cases fbk <;> cases fbki <;> rfl

theorem foldl_indexFeatureD_fbk_isSome {s : AnalyzerState} :
    ∀ (feats : List DocFeature) (d : DocState),
      d.featuresByKind.isSome = true →
      ((feats.foldl (fun d f => indexFeatureD s f d) d).featuresByKind).isSome = true := by
  intro feats
  induction feats with
  | nil => intro d h; exact h
  | cons f t ih =>
    intro d h
    exact ih _ (by rw [indexFeatureD_fbk_isSome]; exact h)

theorem foldl_indexFeatureD_fbki_isSome {s : AnalyzerState} :
    ∀ (feats : List DocFeature) (d : DocState),
      d.featuresByKindAndId.isSome = true →
      ((feats.foldl (fun d f => indexFeatureD s f d) d).featuresByKindAndId).isSome = true := by
  intro feats
  induction feats with
  | nil => intro d h; exact h
  | cons f t ih =>
    intro d h
    exact ih _ (by rw [indexFeatureD_fbki_isSome]; exact h)

theorem stepOk_refl {s : AnalyzerState} : StepOk s s :=
  ⟨rfl, Nat.le_refl _, fun _ h => h, fun _ _ h => h⟩

theorem stepOk_trans {s₁ s₂ s₃ : AnalyzerState}
    (h₁ : StepOk s₁ s₂) (h₂ : StepOk s₂ s₃) : StepOk s₁ s₃ :=
  ⟨h₂.1.trans h₁.1, h₂.2.1.trans h₁.2.1,
    fun v hv => h₂.2.2.1 v (h₁.2.2.1 v hv),
    fun v f hf => h₂.2.2.2 v f (h₁.2.2.2 v f hf)⟩

theorem updateDoc_presence {s : AnalyzerState} {u : Url} {f : DocState → DocState} :
    ∀ v, (getDoc s v).isSome = true → (getDoc (updateDoc s u f) v).isSome = true := by
  intro v hv
  by_cases hvu : v = u
  · subst hvu
    rw [getDoc_updateDoc_self]
    cases hx : getDoc s v with
    | none => rw [hx] at hv; simp at hv
    | some d => simp
  · rwa [getDoc_updateDoc_ne hvu]

theorem addFeature_stepOk {s : AnalyzerState} {u : Url} {f : DocFeature} :
    StepOk s (addFeature s u f) := by
  refine ⟨updateDoc_docs_length, ?_, updateDoc_presence, ?_⟩
  · exact le_of_eq (countUnbegun_updateDoc_eq (fun d => indexFeatureD_begun))
  · intro v g hg
    by_cases hvu : v = u
    · subst hvu
      unfold localFeats at hg ⊢
      unfold addFeature
      rw [getDoc_updateDoc_self]
      cases hd : getDoc s v with
      | none => rw [hd] at hg; exact absurd hg (List.not_mem_nil _)
      | some d =>
        rw [hd] at hg
        show g ∈ addToSet f (indexFeatureD s f d).localFeatures
        rw [indexFeatureD_localFeatures]
        exact mem_addToSet_of_mem hg
    · unfold localFeats at hg ⊢
      unfold addFeature
      rw [getDoc_updateDoc_ne hvu]
      exact hg

theorem beginDoc_stepOk {s : AnalyzerState} {u : Url} : StepOk s (beginDoc s u) := by
  refine ⟨updateDoc_docs_length, countUnbegun_beginDoc_le, updateDoc_presence, ?_⟩
  intro v g hg
  by_cases hvu : v = u
  · subst hvu
    unfold localFeats at hg ⊢
    unfold beginDoc
    rw [getDoc_updateDoc_self]
    cases hd : getDoc s v with
    | none => rw [hd] at hg; exact absurd hg (List.not_mem_nil _)
    | some d => rw [hd] at hg; simpa using hg
  · unfold localFeats at hg ⊢
    unfold beginDoc
    rw [getDoc_updateDoc_ne hvu]
    exact hg

theorem markDone_stepOk {s : AnalyzerState} {u : Url} : StepOk s (markDone s u) := by
  refine ⟨updateDoc_docs_length, le_of_eq (countUnbegun_updateDoc_eq (fun d => rfl)),
    updateDoc_presence, ?_⟩
  intro v g hg
  by_cases hvu : v = u
  · subst hvu
    unfold localFeats at hg ⊢
    unfold markDone
    rw [getDoc_updateDoc_self]
    cases hd : getDoc s v with
    | none => rw [hd] at hg; exact absurd hg (List.not_mem_nil _)
    | some d => rw [hd] at hg; simpa using hg
  · unfold localFeats at hg ⊢
    unfold markDone
    rw [getDoc_updateDoc_ne hvu]
    exact hg

theorem resolveFeatStep_stepOk {res : AnalyzerState → Url → Option (Except String AnalyzerState)}
    {u : Url}
    (hres : ∀ s v s', res s v = some (Except.ok s') → StepOk s s') :
    ∀ {s₀ s₁ : AnalyzerState} {f : ScannedFeat},
      resolveFeatStep res u (some (Except.ok s₀)) f = some (Except.ok s₁) →
      StepOk s₀ s₁ := by
  intro s₀ s₁ f h
  unfold resolveFeatStep at h
  cases f with
  | simple ks ids tag =>
    simp only [Option.some.injEq, Except.ok.injEq] at h
    rw [← h]
    exact addFeature_stepOk
  | imp ty target tag =>
    simp only at h
    cases hdt : getDoc s₀ target with
    | none =>
      rw [hdt] at h
      simp only [Option.some.injEq, Except.ok.injEq] at h
      rw [← h]
      exact stepOk_refl
    | some dt =>
      rw [hdt] at h
      simp only at h
      by_cases hflag : (dt.begunResolving || dt.doneResolving) = true
      · rw [if_pos hflag] at h
        simp only [Option.some.injEq, Except.ok.injEq] at h
        rw [← h]
        exact addFeature_stepOk
      · rw [if_neg hflag] at h
        cases hres' : res s₀ target with
        | none => rw [hres'] at h; exact absurd h (by simp)
        | some r =>
          rw [hres'] at h
          cases r with
          | error m => exact absurd h (by simp)
          | ok s' =>
            simp only [Option.some.injEq, Except.ok.injEq] at h
            rw [← h]
            exact stepOk_trans (hres s₀ target s' hres') addFeature_stepOk
  | inline target =>
    simp only at h
    cases hdt : getDoc s₀ target with
    | none =>
      rw [hdt] at h
      simp only [Option.some.injEq, Except.ok.injEq] at h
      rw [← h]
      exact stepOk_refl
    | some dt =>
      rw [hdt] at h
      simp only at h
      by_cases hflag : (dt.begunResolving || dt.doneResolving) = true
      · rw [if_pos hflag] at h
        simp only [Option.some.injEq, Except.ok.injEq] at h
        rw [← h]
        exact addFeature_stepOk
      · rw [if_neg hflag] at h
        cases hres' : res s₀ target with
        | none => rw [hres'] at h; exact absurd h (by simp)
        | some r =>
          rw [hres'] at h
          cases r with
          | error m => exact absurd h (by simp)
          | ok s' =>
            simp only [Option.some.injEq, Except.ok.injEq] at h
            rw [← h]
            exact stepOk_trans (hres s₀ target s' hres') addFeature_stepOk

theorem resolveFeatStep_none {res : AnalyzerState → Url → Option (Except String AnalyzerState)}
    {u : Url} {f : ScannedFeat} : resolveFeatStep res u none f = none := rfl

theorem resolveFeatStep_error {res : AnalyzerState → Url → Option (Except String AnalyzerState)}
    {u : Url} {f : ScannedFeat} {m : String} :
    resolveFeatStep res u (some (Except.error m)) f = some (Except.error m) := rfl

theorem foldl_resolveFeatStep_none {res : AnalyzerState → Url → Option (Except String AnalyzerState)}
    {u : Url} : ∀ (l : List ScannedFeat),
    l.foldl (resolveFeatStep res u) none = none := by
  intro l
  induction l with
  | nil => rfl
  | cons f t ih => rw [List.foldl_cons, resolveFeatStep_none]; exact ih

theorem foldl_resolveFeatStep_error {res : AnalyzerState → Url → Option (Except String AnalyzerState)}
    {u : Url} {m : String} : ∀ (l : List ScannedFeat),
    l.foldl (resolveFeatStep res u) (some (Except.error m)) = some (Except.error m) := by
  intro l
  induction l with
  | nil => rfl
  | cons f t ih => rw [List.foldl_cons, resolveFeatStep_error]; exact ih

theorem foldl_resolveFeatStep_stepOk
    {res : AnalyzerState → Url → Option (Except String AnalyzerState)} {u : Url}
    (hres : ∀ s v s', res s v = some (Except.ok s') → StepOk s s') :
    ∀ (l : List ScannedFeat) (s₀ s₁ : AnalyzerState),
      l.foldl (resolveFeatStep res u) (some (Except.ok s₀)) = some (Except.ok s₁) →
      StepOk s₀ s₁ := by
  intro l
  induction l with
  | nil =>
    intro s₀ s₁ h
    simp only [List.foldl_nil, Option.some.injEq, Except.ok.injEq] at h
    rw [← h]
    exact stepOk_refl
  | cons f t ih =>
    intro s₀ s₁ h
    rw [List.foldl_cons] at h
    cases hstep : resolveFeatStep res u (some (Except.ok s₀)) f with
    | none =>
      rw [hstep, foldl_resolveFeatStep_none] at h
      exact absurd h (by simp)
    | some r =>
      cases r with
      | error m =>
        rw [hstep, foldl_resolveFeatStep_error] at h
        exact absurd h (by simp)
      | ok sm =>
        rw [hstep] at h
        exact stepOk_trans (resolveFeatStep_stepOk hres hstep) (ih sm s₁ h)

theorem resolveDoc_stepOk :
    ∀ (fuel : Nat) (s : AnalyzerState) (u : Url) (s' : AnalyzerState),
      resolveDoc fuel s u = some (Except.ok s') → StepOk s s' := by
  intro fuel
  induction fuel with
  | zero => intro s u s' h; exact absurd h (by simp [resolveDoc])
  | succ n ih =>
    intro s u s' h
    unfold resolveDoc at h
    cases hd : getDoc s u with
    | none =>
      rw [hd] at h
      simp only [Option.some.injEq, Except.ok.injEq] at h
      rw [← h]; exact stepOk_refl
    | some d =>
      rw [hd] at h
      simp only at h
      by_cases hdone : d.doneResolving = true
      · rw [if_pos hdone] at h
        exact absurd h (by simp)
      · rw [if_neg hdone] at h
        by_cases hbegun : d.begunResolving = true
        · rw [if_pos hbegun] at h
          simp only [Option.some.injEq, Except.ok.injEq] at h
          rw [← h]; exact stepOk_refl
        · rw [if_neg hbegun] at h
          cases hfold : d.scannedFeatures.foldl
              (resolveFeatStep (resolveDoc n) u)
              (some (Except.ok (addFeature (beginDoc s u) u (DocFeature.docRef u)))) with
          | none =>
            rw [hfold] at h
            exact absurd h (by simp)
          | some r =>
            cases r with
            | error m => rw [hfold] at h; exact absurd h (by simp)
            | ok s₃ =>
              rw [hfold] at h
              simp only [Option.some.injEq, Except.ok.injEq] at h
              rw [← h]
              have h₁ : StepOk s (addFeature (beginDoc s u) u (DocFeature.docRef u)) :=
                stepOk_trans beginDoc_stepOk addFeature_stepOk
              have h₂ := foldl_resolveFeatStep_stepOk (fun s v s' hr => ih s v s' hr)
                d.scannedFeatures _ s₃ hfold
              exact stepOk_trans (stepOk_trans h₁ h₂) markDone_stepOk

theorem foldl_resolveFeatStep_ne_none {n : Nat} {u : Url}
    (hnone : ∀ s v, countUnbegun s < n → resolveDoc n s v ≠ none) :
    ∀ (l : List ScannedFeat) (s₀ : AnalyzerState), countUnbegun s₀ < n →
      l.foldl (resolveFeatStep (resolveDoc n) u) (some (Except.ok s₀)) ≠ none := by
  intro l
  induction l with
  | nil => intro s₀ _ h; simp at h
  | cons f t ih =>
    intro s₀ hc h
    rw [List.foldl_cons] at h
    cases f with
    | simple ks ids tag =>
      have hstep : resolveFeatStep (resolveDoc n) u (some (Except.ok s₀))
          (ScannedFeat.simple ks ids tag) =
          some (Except.ok (addFeature s₀ u (DocFeature.plain ks ids tag))) := rfl
      rw [hstep] at h
      exact ih _ (lt_of_le_of_lt addFeature_stepOk.2.1 hc) h
    | imp ty target tag =>
      cases hdt : getDoc s₀ target with
      | none =>
        have hstep : resolveFeatStep (resolveDoc n) u (some (Except.ok s₀))
            (ScannedFeat.imp ty target tag) = some (Except.ok s₀) := by
          simp only [resolveFeatStep]; rw [hdt]
        rw [hstep] at h
        exact ih _ hc h
      | some dt =>
        by_cases hflag : (dt.begunResolving || dt.doneResolving) = true
        · have hstep : resolveFeatStep (resolveDoc n) u (some (Except.ok s₀))
              (ScannedFeat.imp ty target tag) =
              some (Except.ok (addFeature s₀ u (DocFeature.imp ty target tag))) := by
            simp only [resolveFeatStep]; rw [hdt]; simp only [if_pos hflag]
          rw [hstep] at h
          exact ih _ (lt_of_le_of_lt addFeature_stepOk.2.1 hc) h
        · cases hres : resolveDoc n s₀ target with
          | none => exact hnone s₀ target hc hres
          | some r =>
            cases r with
            | error m =>
              have hstep : resolveFeatStep (resolveDoc n) u (some (Except.ok s₀))
                  (ScannedFeat.imp ty target tag) = some (Except.error m) := by
                simp only [resolveFeatStep]; rw [hdt]; simp only [if_neg hflag, hres]
              rw [hstep, foldl_resolveFeatStep_error] at h
              exact absurd h (by simp)
            | ok s' =>
              have hstep : resolveFeatStep (resolveDoc n) u (some (Except.ok s₀))
                  (ScannedFeat.imp ty target tag) =
                  some (Except.ok (addFeature s' u (DocFeature.imp ty target tag))) := by
                simp only [resolveFeatStep]; rw [hdt]; simp only [if_neg hflag, hres]
              rw [hstep] at h
              have hc' : countUnbegun (addFeature s' u (DocFeature.imp ty target tag)) < n :=
                lt_of_le_of_lt
                  (le_trans addFeature_stepOk.2.1 (resolveDoc_stepOk n s₀ target s' hres).2.1) hc
              exact ih _ hc' h
    | inline target =>
      cases hdt : getDoc s₀ target with
      | none =>
        have hstep : resolveFeatStep (resolveDoc n) u (some (Except.ok s₀))
            (ScannedFeat.inline target) = some (Except.ok s₀) := by
          simp only [resolveFeatStep]; rw [hdt]
        rw [hstep] at h
        exact ih _ hc h
      | some dt =>
        by_cases hflag : (dt.begunResolving || dt.doneResolving) = true
        · have hstep : resolveFeatStep (resolveDoc n) u (some (Except.ok s₀))
              (ScannedFeat.inline target) =
              some (Except.ok (addFeature s₀ u (DocFeature.docRef target))) := by
            simp only [resolveFeatStep]; rw [hdt]; simp only [if_pos hflag]
          rw [hstep] at h
          exact ih _ (lt_of_le_of_lt addFeature_stepOk.2.1 hc) h
        · cases hres : resolveDoc n s₀ target with
          | none => exact hnone s₀ target hc hres
          | some r =>
            cases r with
            | error m =>
              have hstep : resolveFeatStep (resolveDoc n) u (some (Except.ok s₀))
                  (ScannedFeat.inline target) = some (Except.error m) := by
                simp only [resolveFeatStep]; rw [hdt]; simp only [if_neg hflag, hres]
              rw [hstep, foldl_resolveFeatStep_error] at h
              exact absurd h (by simp)
            | ok s' =>
              have hstep : resolveFeatStep (resolveDoc n) u (some (Except.ok s₀))
                  (ScannedFeat.inline target) =
                  some (Except.ok (addFeature s' u (DocFeature.docRef target))) := by
                simp only [resolveFeatStep]; rw [hdt]; simp only [if_neg hflag, hres]
              rw [hstep] at h
              have hc' : countUnbegun (addFeature s' u (DocFeature.docRef target)) < n :=
                lt_of_le_of_lt
                  (le_trans addFeature_stepOk.2.1 (resolveDoc_stepOk n s₀ target s' hres).2.1) hc
              exact ih _ hc' h

theorem resolveDoc_ne_none :
    ∀ (fuel : Nat) (s : AnalyzerState) (u : Url),
      countUnbegun s < fuel → resolveDoc fuel s u ≠ none := by
  intro fuel
  induction fuel with
  | zero => intro s u hc; exact absurd hc (Nat.not_lt_zero _)
  | succ n ih =>
    intro s u hc h
    unfold resolveDoc at h
    cases hd : getDoc s u with
    | none => rw [hd] at h; simp at h
    | some d =>
      rw [hd] at h
      simp only at h
      by_cases hdone : d.doneResolving = true
      · rw [if_pos hdone] at h; simp at h
      · rw [if_neg hdone] at h
        by_cases hbegun : d.begunResolving = true
        · rw [if_pos hbegun] at h; simp at h
        · rw [if_neg hbegun] at h
          have hlt : countUnbegun (addFeature (beginDoc s u) u (DocFeature.docRef u)) < n := by
            have h1 := countUnbegun_beginDoc_lt hd (by
              cases hb : d.begunResolving
              · rfl
              · exact absurd hb hbegun)
            have h2 := (addFeature_stepOk (s := beginDoc s u) (u := u)
              (f := DocFeature.docRef u)).2.1
            omega
          cases hfoldv : d.scannedFeatures.foldl (resolveFeatStep (resolveDoc n) u)
              (some (Except.ok (addFeature (beginDoc s u) u (DocFeature.docRef u)))) with
          | none =>
            exact foldl_resolveFeatStep_ne_none (fun s v hcv => ih s v hcv)
              d.scannedFeatures _ hlt hfoldv
          | some r =>
            rw [hfoldv] at h
            cases r with
            | error m => simp at h
            | ok s₃ => simp at h

theorem foldl_resolveFeatStep_no_error {n : Nat} {u : Url}
    (herr : ∀ s v m, resolveDoc n s v = some (Except.error m) →
      ∃ d, getDoc s v = some d ∧ d.doneResolving = true) :
    ∀ (l : List ScannedFeat) (s₀ : AnalyzerState) (m : String),
      l.foldl (resolveFeatStep (resolveDoc n) u) (some (Except.ok s₀)) ≠
        some (Except.error m) := by
  intro l
  induction l with
  | nil => intro s₀ m h; simp at h
  | cons f t ih =>
    intro s₀ m h
    rw [List.foldl_cons] at h
    cases f with
    | simple ks ids tag =>
      have hstep : resolveFeatStep (resolveDoc n) u (some (Except.ok s₀))
          (ScannedFeat.simple ks ids tag) =
          some (Except.ok (addFeature s₀ u (DocFeature.plain ks ids tag))) := rfl
      rw [hstep] at h
      exact ih _ m h
    | imp ty target tag =>
      cases hdt : getDoc s₀ target with
      | none =>
        have hstep : resolveFeatStep (resolveDoc n) u (some (Except.ok s₀))
            (ScannedFeat.imp ty target tag) = some (Except.ok s₀) := by
          simp only [resolveFeatStep]; rw [hdt]
        rw [hstep] at h
        exact ih _ m h
      | some dt =>
        by_cases hflag : (dt.begunResolving || dt.doneResolving) = true
        · have hstep : resolveFeatStep (resolveDoc n) u (some (Except.ok s₀))
              (ScannedFeat.imp ty target tag) =
              some (Except.ok (addFeature s₀ u (DocFeature.imp ty target tag))) := by
            simp only [resolveFeatStep]; rw [hdt]; simp only [if_pos hflag]
          rw [hstep] at h
          exact ih _ m h
        · cases hres : resolveDoc n s₀ target with
          | none =>
            have hstep : resolveFeatStep (resolveDoc n) u (some (Except.ok s₀))
                (ScannedFeat.imp ty target tag) = none := by
              simp only [resolveFeatStep]; rw [hdt]; simp only [if_neg hflag, hres]
            rw [hstep, foldl_resolveFeatStep_none] at h
            exact absurd h (by simp)
          | some r =>
            cases r with
            | error m2 =>
              obtain ⟨dt2, hdt2, hdone2⟩ := herr s₀ target m2 hres
              rw [hdt] at hdt2
              have : dt2 = dt := by
                have := hdt2.symm
                simpa using this
              subst this
              rw [hdone2] at hflag
              simp at hflag
            | ok s' =>
              have hstep : resolveFeatStep (resolveDoc n) u (some (Except.ok s₀))
                  (ScannedFeat.imp ty target tag) =
                  some (Except.ok (addFeature s' u (DocFeature.imp ty target tag))) := by
                simp only [resolveFeatStep]; rw [hdt]; simp only [if_neg hflag, hres]
              rw [hstep] at h
              exact ih _ m h
    | inline target =>
      cases hdt : getDoc s₀ target with
      | none =>
        have hstep : resolveFeatStep (resolveDoc n) u (some (Except.ok s₀))
            (ScannedFeat.inline target) = some (Except.ok s₀) := by
          simp only [resolveFeatStep]; rw [hdt]
        rw [hstep] at h
        exact ih _ m h
      | some dt =>
        by_cases hflag : (dt.begunResolving || dt.doneResolving) = true
        · have hstep : resolveFeatStep (resolveDoc n) u (some (Except.ok s₀))
              (ScannedFeat.inline target) =
              some (Except.ok (addFeature s₀ u (DocFeature.docRef target))) := by
            simp only [resolveFeatStep]; rw [hdt]; simp only [if_pos hflag]
          rw [hstep] at h
          exact ih _ m h
        · cases hres : resolveDoc n s₀ target with
          | none =>
            have hstep : resolveFeatStep (resolveDoc n) u (some (Except.ok s₀))
                (ScannedFeat.inline target) = none := by
              simp only [resolveFeatStep]; rw [hdt]; simp only [if_neg hflag, hres]
            rw [hstep, foldl_resolveFeatStep_none] at h
            exact absurd h (by simp)
          | some r =>
            cases r with
            | error m2 =>
              obtain ⟨dt2, hdt2, hdone2⟩ := herr s₀ target m2 hres
              rw [hdt] at hdt2
              have : dt2 = dt := by
                have := hdt2.symm
                simpa using this
              subst this
              rw [hdone2] at hflag
              simp at hflag
            | ok s' =>
              have hstep : resolveFeatStep (resolveDoc n) u (some (Except.ok s₀))
                  (ScannedFeat.inline target) =
                  some (Except.ok (addFeature s' u (DocFeature.docRef target))) := by
                simp only [resolveFeatStep]; rw [hdt]; simp only [if_neg hflag, hres]
              rw [hstep] at h
              exact ih _ m h

theorem resolveDoc_no_error :
    ∀ (fuel : Nat) (s : AnalyzerState) (u : Url) (m : String),
      resolveDoc fuel s u = some (Except.error m) →
      ∃ d, getDoc s u = some d ∧ d.doneResolving = true := by
  intro fuel
  induction fuel with
  | zero => intro s u m h; simp [resolveDoc] at h
  | succ n ih =>
    intro s u m h
    unfold resolveDoc at h
    cases hd : getDoc s u with
    | none => rw [hd] at h; simp at h
    | some d =>
      rw [hd] at h
      simp only at h
      by_cases hdone : d.doneResolving = true
      · exact ⟨d, rfl, hdone⟩
      · rw [if_neg hdone] at h
        by_cases hbegun : d.begunResolving = true
        · rw [if_pos hbegun] at h; simp at h
        · rw [if_neg hbegun] at h
          cases hfoldv : d.scannedFeatures.foldl (resolveFeatStep (resolveDoc n) u)
              (some (Except.ok (addFeature (beginDoc s u) u (DocFeature.docRef u)))) with
          | none => rw [hfoldv] at h; simp at h
          | some r =>
            rw [hfoldv] at h
            cases r with
            | error m2 =>
              exact absurd hfoldv (foldl_resolveFeatStep_no_error
                (fun s v m3 hr => ih s v m3 hr) d.scannedFeatures _ m2)
            | ok s₃ => simp at h

theorem pairwiseLt_le_getLast {l : List Nat} {k : Nat}
    (hp : l.Pairwise (· < ·)) (h : l.getLast? = some k) : ∀ x ∈ l, x ≤ k := by
  induction l with
  | nil => simp at h
  | cons a t ih =>
    intro x hx
    cases t with
    | nil =>
      simp only [List.getLast?_singleton, Option.some.injEq] at h
      simp only [List.mem_singleton] at hx
      omega
    | cons b u =>
      rw [List.getLast?_cons_cons] at h
      have hp' := List.pairwise_cons.mp hp
      rcases List.mem_cons.mp hx with rfl | hx'
      · have hk : k ∈ b :: u := List.mem_of_mem_getLast? h
        exact le_of_lt (hp'.1 k hk)
      · exact ih hp'.2 h x hx'

theorem twoCharsAt_spec {t : List Char} {j : Nat} {c₁ c₂ : Char}
    (h : twoCharsAt t j = some (c₁, c₂)) :
    j + 2 ≤ t.length ∧ t.drop j = c₁ :: c₂ :: t.drop (j + 2) := by
  unfold twoCharsAt at h
  rcases hd : t.drop j with _ | ⟨a, _ | ⟨b, rest⟩⟩ <;> rw [hd] at h <;>
    simp only [Option.some.injEq, Prod.mk.injEq, reduceCtorEq] at h
  obtain ⟨rfl, rfl⟩ := h
  have hlen : t.length - j = rest.length + 2 := by
    have := congrArg List.length hd
    simpa [List.length_drop] using this
  have hrest : t.drop (j + 2) = rest := by
    have h2 : List.drop 2 (List.drop j t) = List.drop 2 (a :: b :: rest) :=
      congrArg (List.drop 2) hd
    rw [List.drop_drop] at h2
    simpa using h2
  refine ⟨by omega, ?_⟩
  rw [hrest]

theorem isColonPairAt_length {t : List Char} {j : Nat}
    (h : isColonPairAt t j = true) : j + 2 ≤ t.length := by
  unfold isColonPairAt at h
  exact (twoCharsAt_spec (beq_iff_eq.mp h)).1

theorem lastColonPair_spec {t : List Char} {k : Nat}
    (h : lastColonPair t = some k) :
    isColonPairAt t k = true ∧ ∀ j, k < j → isColonPairAt t j = false := by
  unfold lastColonPair at h
  have hmem := List.mem_of_mem_getLast? h
  have hk : isColonPairAt t k = true := (List.mem_filter.mp hmem).2
  refine ⟨hk, ?_⟩
  intro j hj
  by_contra hfalse
  have hjt : isColonPairAt t j = true := by
    revert hfalse; cases isColonPairAt t j <;> simp
  have hjlen : j < t.length := by have := isColonPairAt_length hjt; omega
  have hjmem : j ∈ (List.range t.length).filter (fun j => isColonPairAt t j) :=
    List.mem_filter.mpr ⟨List.mem_range.mpr hjlen, hjt⟩
  have hpair : ((List.range t.length).filter (fun j => isColonPairAt t j)).Pairwise (· < ·) :=
    List.Pairwise.sublist (List.filter_sublist _) (List.pairwise_lt_range _)
  have := pairwiseLt_le_getLast hpair h j hjmem
  omega

theorem lastColonPair_none {t : List Char} (h : lastColonPair t = none) :
    ∀ j, isColonPairAt t j = false := by
  intro j
  by_contra hfalse
  have hjt : isColonPairAt t j = true := by
    revert hfalse; cases isColonPairAt t j <;> simp
  have hjlen : j < t.length := by have := isColonPairAt_length hjt; omega
  have hjmem : j ∈ (List.range t.length).filter (fun j => isColonPairAt t j) :=
    List.mem_filter.mpr ⟨List.mem_range.mpr hjlen, hjt⟩
  unfold lastColonPair at h
  rw [List.getLast?_eq_none_iff] at h
  rw [h] at hjmem
  exact absurd hjmem (List.not_mem_nil _)

theorem splitLines_noTerm :
    ∀ (t : List Char), ∀ l ∈ splitLines t, ∀ c ∈ l, isLineTerm c = false
  | [], l, hl, c, hc => by
    simp only [splitLines, List.mem_singleton] at hl
    subst hl
    simp at hc
  | a :: rest, l, hl, c, hc => by
    by_cases ha : isLineTerm a = true
    · rw [splitLines, if_pos ha] at hl
      rcases List.mem_cons.mp hl with rfl | hl2
      · simp at hc
      · exact splitLines_noTerm rest l hl2 c hc
    · rw [splitLines, if_neg ha] at hl
      cases hsp : splitLines rest with
      | nil =>
        rw [hsp] at hl
        simp only [List.mem_singleton] at hl
        subst hl
        rcases List.mem_singleton.mp hc with rfl
        simpa using ha
      | cons l0 ls =>
        rw [hsp] at hl
        rcases List.mem_cons.mp hl with rfl | hl2
        · rcases List.mem_cons.mp hc with rfl | hc2
          · simpa using ha
          · exact splitLines_noTerm rest l0
              (by rw [hsp]; exact List.mem_cons_self l0 ls) c hc2
        · exact splitLines_noTerm rest l
            (by rw [hsp]; exact List.mem_cons_of_mem l0 hl2) c hc

theorem carveEventName_some {t t₁ ev : List Char}
    (h : carveEventName t = (t₁, some ev)) :
    ∃ l, (splitLines t).find? (fun l => (lastColonPair l).isSome) = some l ∧
      l = t₁ ++ ':' :: ':' :: ev ∧ (∀ m, isColonPairAt ev m = false) ∧
      ∀ c ∈ l, isLineTerm c = false := by
  unfold carveEventName at h
  cases hf : (splitLines t).find? (fun l => (lastColonPair l).isSome) with
  | none => rw [hf] at h; simp at h
  | some l =>
    rw [hf] at h
    simp only at h
    refine ⟨l, rfl, ?_⟩
    cases hl : lastColonPair l with
    | none => rw [hl] at h; simp at h
    | some k =>
      rw [hl] at h
      simp only [Prod.mk.injEq, Option.some.injEq] at h
      obtain ⟨rfl, rfl⟩ := h
      obtain ⟨hk, hmax⟩ := lastColonPair_spec hl
      have hdrop := (twoCharsAt_spec (beq_iff_eq.mp hk)).2
      refine ⟨?_, ?_, ?_⟩
      · conv_lhs => rw [← List.take_append_drop k l]
        rw [hdrop]
      · intro m
        by_contra hfalse
        have hmt : isColonPairAt (l.drop (k + 2)) m = true := by
          revert hfalse; cases isColonPairAt (l.drop (k + 2)) m <;> simp
        have hin : isColonPairAt l (k + 2 + m) = true := by
          unfold isColonPairAt twoCharsAt at hmt ⊢
          rwa [List.drop_drop] at hmt
        have hout := hmax (k + 2 + m) (by omega)
        rw [hout] at hin
        exact absurd hin (by decide)
      · exact splitLines_noTerm t l (List.mem_of_find?_eq_some hf)

theorem carveEventName_none {t : List Char} (h : (carveEventName t).2 = none) :
    ∀ l ∈ splitLines t, ∀ m, isColonPairAt l m = false := by
  intro l hl m
  unfold carveEventName at h
  cases hf : (splitLines t).find? (fun l => (lastColonPair l).isSome) with
  | none =>
    have hnone := List.find?_eq_none.mp hf l hl
    have hlc : lastColonPair l = none := by
      cases hx : lastColonPair l with
      | none => rfl
      | some k => rw [hx] at hnone; simp at hnone
    exact lastColonPair_none hlc m
  | some l2 =>
    rw [hf] at h
    simp only at h
    cases hl2 : lastColonPair l2 with
    | none =>
      have hp := List.find?_some hf
      rw [hl2] at hp
      simp at hp
    | some k => rw [hl2] at h; simp at h

theorem targetName_none_of_dynamic {t : JsTarget}
    (h : hasDynamicIndex t = true) : targetName t = none := by
  induction t with
  | ident n => simp [hasDynamicIndex] at h
  | member o p ih =>
    simp only [hasDynamicIndex] at h
    simp [targetName, ih h]
  | indexLit o l ih =>
    simp only [hasDynamicIndex] at h
    simp [targetName, ih h]
  | indexDyn o s ih => simp [targetName]

theorem resolveStep_normal (acc : List PathSeg) (s : PathSeg)
    (h : isNormalSeg s = true) : resolveStep acc s = acc ++ [s] := by
  simp only [isNormalSeg, Bool.not_eq_true', Bool.or_eq_false_iff,
    decide_eq_false_iff_not] at h
  simp [resolveStep, h.1.1, h.1.2, h.2]

theorem foldl_resolveStep_normal :
    ∀ (l : List PathSeg) (acc : List PathSeg),
      (∀ s ∈ l, isNormalSeg s = true) → l.foldl resolveStep acc = acc ++ l
  | [], acc, _ => by simp
  | s :: t, acc, h => by
    rw [List.foldl_cons, resolveStep_normal acc s (h s (by simp)),
      foldl_resolveStep_normal t (acc ++ [s]) (fun x hx => h x (by simp [hx]))]
    simp

theorem resolveAbs_normal (l : List PathSeg)
    (h : ∀ s ∈ l, isNormalSeg s = true) : resolveAbs ([] :: l) = [] :: l := by
  unfold resolveAbs
  rw [List.foldl_cons]
  have h0 : resolveStep [] [] = [] := by simp [resolveStep]
  rw [h0, foldl_resolveStep_normal l [] h]
  simp

theorem resolveAbs_normal_trail (l : List PathSeg)
    (h : ∀ s ∈ l, isNormalSeg s = true) :
    resolveAbs ([] :: (l ++ [[]])) = [] :: l := by
  unfold resolveAbs
  rw [List.foldl_cons]
  have h0 : resolveStep [] [] = [] := by simp [resolveStep]
  rw [h0, List.foldl_append, foldl_resolveStep_normal l [] h]
  simp [resolveStep]

theorem commonLen_le_left {α : Type} [DecidableEq α] :
    ∀ (a b : List α), commonLen a b ≤ a.length
  | [], b => by cases b <;> simp [commonLen]
  | a :: as, [] => by simp [commonLen]
  | a :: as, b :: bs => by
    by_cases h : a = b
    · simpa [commonLen, h] using Nat.succ_le_succ (commonLen_le_left as bs)
    · simp [commonLen, h]

theorem commonLen_le_right {α : Type} [DecidableEq α] :
    ∀ (a b : List α), commonLen a b ≤ b.length
  | [], b => by cases b <;> simp [commonLen]
  | a :: as, [] => by simp [commonLen]
  | a :: as, b :: bs => by
    by_cases h : a = b
    · simpa [commonLen, h] using Nat.succ_le_succ (commonLen_le_right as bs)
    · simp [commonLen, h]

theorem commonLen_take {α : Type} [DecidableEq α] :
    ∀ (a b : List α), a.take (commonLen a b) = b.take (commonLen a b)
  | [], b => by cases b <;> simp [commonLen]
  | a :: as, [] => by simp [commonLen]
  | a :: as, b :: bs => by
    by_cases h : a = b
    · subst h
      simp [commonLen, commonLen_take as bs]
    · simp [commonLen, h]

theorem reverse_drop_reverse {α : Type} (l : List α) (n : Nat) :
    (l.reverse.drop n).reverse = l.take (l.length - n) := by
  rw [List.reverse_drop, List.reverse_reverse, List.length_reverse]

theorem concat_underscore_normal (s : PathSeg) :
    isNormalSeg (s ++ ['_']) = true := by
  simp only [isNormalSeg, Bool.not_eq_true', Bool.or_eq_false_iff,
    decide_eq_false_iff_not]
  refine ⟨⟨by simp, ?_⟩, ?_⟩
  · intro h
    have := congrArg List.getLast? h
    simp [List.getLast?_concat] at this
  · intro h
    have := congrArg List.getLast? h
    simp [List.getLast?_concat] at this

theorem stripUnderscore_concat_underscore (p : List PathSeg) (s : PathSeg) :
    stripUnderscore (p ++ [s ++ ['_']]) = p ++ [s] := by
  unfold stripUnderscore
  rw [List.getLast?_concat]
  simp only
  rw [if_pos (List.getLast?_concat _), List.dropLast_concat, List.dropLast_concat]

theorem stripUnderscore_concat_keep (p : List PathSeg) (s : PathSeg)
    (h : s.getLast? ≠ some '_') :
    stripUnderscore (p ++ [s]) = p ++ [s] := by
  unfold stripUnderscore
  rw [List.getLast?_concat]
  simp only
  rw [if_neg h]

theorem posixRelative_eval (F T f t : List PathSeg)
    (hf : resolveAbs F = [] :: f) (ht : resolveAbs T = [] :: t) :
    posixRelative F T =
      List.replicate (f.length - commonLen f t) ['.', '.'] ++
        t.drop (commonLen f t) := by
  unfold posixRelative
  simp only [hf, ht]
  have hc : commonLen ([] :: f) ([] :: t) = commonLen f t + 1 := by
    simp [commonLen]
  rw [hc]
  simp [Nat.succ_sub_succ]

theorem removeDotsRev_noDot :
    ∀ (L X : List PathSeg),
      (∀ s ∈ L, s ≠ ['.'] ∧ s ≠ ['.', '.']) →
      removeDotsRev (L ++ X) 0 = L ++ removeDotsRev X 0
  | [], X, _ => rfl
  | s :: t, X, h => by
    have hs := h s (by simp)
    rw [List.cons_append]
    simp only [removeDotsRev]
    simp [hs.1, hs.2, removeDotsRev_noDot t X (fun x hx => h x (by simp [hx]))]

theorem removeDotsRev_replicate :
    ∀ (n : Nat) (X : List PathSeg) (up : Nat),
      removeDotsRev (List.replicate n ['.', '.'] ++ X) up =
        removeDotsRev X (up + n)
  | 0, X, up => by simp
  | n + 1, X, up => by
    rw [List.replicate_succ, List.cons_append]
    have h1 : removeDotsRev ((['.', '.'] : PathSeg) ::
        (List.replicate n ['.', '.'] ++ X)) up =
        removeDotsRev (List.replicate n ['.', '.'] ++ X) (up + 1) := by
      simp [removeDotsRev]
    rw [h1, removeDotsRev_replicate n X (up + 1)]
    have h : up + 1 + n = up + (n + 1) := by omega
    rw [h]

theorem removeDotsRev_climb :
    ∀ (A : List PathSeg) (n : Nat),
      (∀ s ∈ A, isNormalSeg s = true) → n ≤ A.length →
      removeDotsRev (A ++ [[]]) n = A.drop n ++ [[]]
  | [], n, _, hn => by
    have h0 : n = 0 := Nat.le_zero.mp hn
    subst h0
    simp [removeDotsRev]
  | a :: t, n, h, hn => by
    have ha := h a (by simp)
    simp only [isNormalSeg, Bool.not_eq_true', Bool.or_eq_false_iff,
      decide_eq_false_iff_not] at ha
    rw [List.cons_append]
    simp only [removeDotsRev]
    rw [if_neg ha.1.2, if_neg ha.2]
    cases n with
    | zero =>
      rw [if_neg (by omega)]
      rw [removeDotsRev_climb t 0 (fun x hx => h x (by simp [hx]))
        (Nat.zero_le _)]
      simp
    | succ m =>
      rw [if_pos (by omega)]
      have hm : m ≤ t.length := by simpa using hn
      rw [show m + 1 - 1 = m from rfl,
        removeDotsRev_climb t m (fun x hx => h x (by simp [hx])) hm]
      simp

theorem mergePaths_eval (fdir tbase : List PathSeg) (z lastT : PathSeg)
    (k : Nat)
    (hfn : ∀ s ∈ fdir, isNormalSeg s = true)
    (htn : ∀ s ∈ tbase, isNormalSeg s = true)
    (hlast : lastT ≠ ['.'] ∧ lastT ≠ ['.', '.'])
    (hk : k ≤ fdir.length) (htake : fdir.take k = tbase.take k) :
    mergePaths ([] :: (fdir ++ [z]))
      (List.replicate (fdir.length - k) ['.', '.'] ++
        (tbase.drop k ++ [lastT])) =
      [] :: (tbase ++ [lastT]) := by
  have hbase : ([] :: (fdir ++ [z])).dropLast = [] :: fdir := by
    rw [show ([] : PathSeg) :: (fdir ++ [z]) = (([] : PathSeg) :: fdir) ++ [z]
      from by simp, List.dropLast_concat]
  unfold mergePaths
  rw [hbase]
  set n := fdir.length - k with hn
  set rest := tbase.drop k ++ [lastT] with hrestdef
  have hrest_last : rest.getLast? = some lastT := by
    rw [hrestdef]
    exact List.getLast?_concat _
  have hsrc_last :
      (([] : PathSeg) :: fdir ++ (List.replicate n ['.', '.'] ++ rest)).getLast?
        = some lastT := by
    rw [List.getLast?_append, List.getLast?_append, hrest_last]
    rfl
  have hclean :
      removeDots (([] : PathSeg) :: fdir ++
        (List.replicate n ['.', '.'] ++ rest)) =
      [] :: (tbase ++ [lastT]) := by
    unfold removeDots
    have hrev :
        ((([] : PathSeg) :: fdir) ++
          (List.replicate n ['.', '.'] ++ rest)).reverse =
        rest.reverse ++ (List.replicate n ['.', '.'] ++
          (fdir.reverse ++ [[]])) := by
      simp [List.reverse_append, List.reverse_replicate]
    rw [hrev]
    have hnodot : ∀ s ∈ rest.reverse, s ≠ ['.'] ∧ s ≠ ['.', '.'] := by
      intro s hs
      rw [List.mem_reverse] at hs
      rw [hrestdef] at hs
      rcases List.mem_append.mp hs with h1 | h1
      · have := htn s (List.mem_of_mem_drop h1)
        simp only [isNormalSeg, Bool.not_eq_true', Bool.or_eq_false_iff,
          decide_eq_false_iff_not] at this
        exact ⟨this.1.2, this.2⟩
      · rw [List.mem_singleton] at h1
        subst h1
        exact hlast
    rw [removeDotsRev_noDot _ _ hnodot, removeDotsRev_replicate,
      removeDotsRev_climb fdir.reverse (0 + n)
        (fun x hx => hfn x (List.mem_reverse.mp hx))
        (by simp [hn])]
    rw [List.reverse_append, List.reverse_append, List.reverse_reverse,
      reverse_drop_reverse]
    have hlen2 : fdir.length - (0 + n) = k := by omega
    rw [hlen2, htake, hrestdef, List.append_assoc,
      ← List.append_assoc (List.take k tbase), List.take_append_drop]
    rfl
  simp only [hsrc_last, hclean]
  have hclast : (([] : PathSeg) :: (tbase ++ [lastT])).getLast? = some lastT := by
    rw [show ([] : PathSeg) :: (tbase ++ [lastT]) =
      (([] : PathSeg) :: tbase) ++ [lastT] from by simp, List.getLast?_concat]
  by_cases hlt : lastT = []
  · subst hlt
    have hC2 : ¬((some ([] : PathSeg) = some [] ∨ some ([] : PathSeg) = some ['.'] ∨
        some ([] : PathSeg) = some ['.', '.']) ∧
        (([] : PathSeg) :: (tbase ++ [[]])).getLast? ≠ some []) :=
      fun h => h.2 hclast
    rw [if_neg hC2, List.head?_cons, if_pos rfl]
  · have hC2 : ¬((some lastT = some [] ∨ some lastT = some ['.'] ∨
        some lastT = some ['.', '.']) ∧
        (([] : PathSeg) :: (tbase ++ [lastT])).getLast? ≠ some []) := by
      intro hcontra
      rcases hcontra.1 with h1 | h1 | h1
      · exact hlt (by simpa using h1)
      · exact hlast.1 (by simpa using h1)
      · exact hlast.2 (by simpa using h1)
    rw [if_neg hC2, List.head?_cons, if_pos rfl]

theorem dirOf_concat (p : List PathSeg) (z : PathSeg) :
    dirOf (p ++ [z]) = p ++ [[]] := by
  unfold dirOf
  rw [List.getLast?_concat]
  cases z with
  | nil => rfl
  | cons c cs =>
    show (p ++ [c :: cs]).dropLast ++ [[]] = p ++ [[]]
    rw [List.dropLast_concat]

theorem appendUnderscore_concat (p : List PathSeg) (z : PathSeg) :
    appendUnderscore (p ++ [z]) = p ++ [z ++ ['_']] := by
  unfold appendUnderscore
  rw [List.getLast?_concat]
  show (p ++ [z]).dropLast ++ [z ++ ['_']] = _
  rw [List.dropLast_concat]

theorem absNormalPath_cases (p : List PathSeg) (h : absNormalPath p = true) :
    ∃ r, p = [] :: r ∧ r ≠ [] ∧
      ∀ s ∈ (if r.getLast? = some [] then r.dropLast else r),
        isNormalSeg s = true := by
  cases p with
  | nil => simp [absNormalPath] at h
  | cons s r =>
    cases s with
    | nil =>
      refine ⟨r, rfl, ?_, ?_⟩
      · intro hr
        rw [absNormalPath, hr] at h
        simp at h
      · intro x hx
        rw [absNormalPath] at h
        simp only [Bool.and_eq_true, List.all_eq_true] at h
        exact h.2 x hx
    | cons c cs => simp [absNormalPath] at h

theorem simpleUrlRelative_samePath (fromU toU : UrlRecord)
    (h1 : fromU.protocol = toU.protocol) (h2 : fromU.slashes = toU.slashes)
    (h3 : fromU.host = toU.host) (h4 : fromU.auth = toU.auth)
    (h5 : fromU.pathname = toU.pathname) :
    simpleUrlRelative fromU toU = FileRelUrl.rel [] toU.search toU.hash := by
  unfold simpleUrlRelative
  rw [if_neg (by simp [h1, h2, h3, h4]), if_pos h5]

theorem simpleUrlRelative_diffPath (fromU toU : UrlRecord)
    (F T : List PathSeg)
    (h1 : fromU.protocol = toU.protocol) (h2 : fromU.slashes = toU.slashes)
    (h3 : fromU.host = toU.host) (h4 : fromU.auth = toU.auth)
    (hF : fromU.pathname = some F) (hT : toU.pathname = some T)
    (h5 : fromU.pathname ≠ toU.pathname) :
    simpleUrlRelative fromU toU =
      FileRelUrl.rel
        (if stripUnderscore (posixRelative (dirOf F) (appendUnderscore T)) =
            [[]] then []
          else stripUnderscore (posixRelative (dirOf F) (appendUnderscore T)))
        toU.search toU.hash := by
  unfold simpleUrlRelative
  rw [if_neg (by simp [h1, h2, h3, h4]), if_neg h5, hF, hT]

theorem UrlRecord.ext_eq (a b : UrlRecord)
    (h1 : a.protocol = b.protocol) (h2 : a.slashes = b.slashes)
    (h3 : a.auth = b.auth) (h4 : a.host = b.host)
    (h5 : a.pathname = b.pathname) (h6 : a.search = b.search)
    (h7 : a.hash = b.hash) : a = b := by
  obtain ⟨p1, s1, a1, ho1, pn1, se1, ha1⟩ := a
  obtain ⟨p2, s2, a2, ho2, pn2, se2, ha2⟩ := b
  simp only at h1 h2 h3 h4 h5 h6 h7
  subst h1 h2 h3 h4 h5 h6 h7
  rfl
/-! ## Claim theorems -/

/-- Claim C3: `Document.resolve` is a three-state operation — called on a
document already done resolving it throws the fatal precondition error;
called re-entrantly while begun but not done it returns at once without
modifying anything; otherwise it sets the begun flag, adds the document
itself as a feature, resolves every scanned feature in order and sets the
done flag — and with the per-analysis map bounding the recursion, resolving
any document, cyclic import graphs included, terminates (the wrapper's fuel
never runs out, so the outcome is never the exhausted marker). -/
theorem claim_C3_resolve_three_state :
    (∀ (s : AnalyzerState) (u : Url) (d : DocState),
        getDoc s u = some d → d.doneResolving = true →
        resolveDocument s u = some (Except.error "resolve can only be called once")) ∧
    (∀ (s : AnalyzerState) (u : Url) (d : DocState),
        getDoc s u = some d → d.doneResolving = false → d.begunResolving = true →
        resolveDocument s u = some (Except.ok s)) ∧
    (∀ (s : AnalyzerState) (u : Url) (d : DocState),
        getDoc s u = some d → d.doneResolving = false → d.begunResolving = false →
        ∃ s', resolveDocument s u = some (Except.ok s') ∧
          ∃ d', getDoc s' u = some d' ∧ d'.doneResolving = true ∧
            DocFeature.docRef u ∈ d'.localFeatures) := by
  refine ⟨?_, ?_, ?_⟩
  · intro s u d hd hdone
    unfold resolveDocument resolveDoc
    rw [hd]
    simp only [hdone, if_true]
  · intro s u d hd hdone hbegun
    unfold resolveDocument resolveDoc
    rw [hd]
    simp only [hdone, hbegun, Bool.false_eq_true, if_false, if_true]
  · intro s u d hd hdone hbegun
    have hne : resolveDocument s u ≠ none := by
      unfold resolveDocument
      exact resolveDoc_ne_none _ s u (lt_of_le_of_lt countUnbegun_le (Nat.lt_succ_self _))
    cases hres : resolveDocument s u with
    | none => exact absurd hres hne
    | some r =>
      cases r with
      | error m =>
        obtain ⟨d2, hd2, hdone2⟩ := resolveDoc_no_error _ s u m hres
        rw [hd] at hd2
        have : d2 = d := by simpa using hd2.symm
        subst this
        rw [hdone2] at hdone
        exact absurd hdone (by simp)
      | ok s' =>
        refine ⟨s', rfl, ?_⟩
        unfold resolveDocument resolveDoc at hres
        rw [hd] at hres
        simp only [hdone, hbegun, Bool.false_eq_true, if_false] at hres
        cases hfold : s.docs.length with
        | zero =>
          exfalso
          have h0 : countUnbegun s = 0 := by
            have := @countUnbegun_le s
            omega
          have hlt := countUnbegun_beginDoc_lt hd hbegun
          have := @countUnbegun_beginDoc_le s u
          omega
        | succ n0 =>
          rw [hfold] at hres
          cases hfoldv : d.scannedFeatures.foldl (resolveFeatStep (resolveDoc (n0 + 1)) u)
              (some (Except.ok (addFeature (beginDoc s u) u (DocFeature.docRef u)))) with
          | none => rw [hfoldv] at hres; simp at hres
          | some r2 =>
            rw [hfoldv] at hres
            cases r2 with
            | error m2 => simp at hres
            | ok s₃ =>
              simp only [Option.some.injEq, Except.ok.injEq] at hres
              subst hres
              have hmem2 : DocFeature.docRef u ∈
                  localFeats (addFeature (beginDoc s u) u (DocFeature.docRef u)) u := by
                unfold localFeats addFeature
                rw [getDoc_updateDoc_self]
                unfold beginDoc
                rw [getDoc_updateDoc_self, hd]
                simp only [Option.map_some']
                show DocFeature.docRef u ∈ addToSet (DocFeature.docRef u) _
                exact mem_addToSet_self
              have hpres2 : (getDoc (addFeature (beginDoc s u) u (DocFeature.docRef u)) u).isSome
                  = true := by
                apply updateDoc_presence
                apply updateDoc_presence
                rw [hd]; rfl
              have hstep := foldl_resolveFeatStep_stepOk
                (fun s v s' hr => resolveDoc_stepOk _ s v s' hr)
                d.scannedFeatures _ s₃ hfoldv
              have hpres3 : (getDoc s₃ u).isSome = true := hstep.2.2.1 u hpres2
              have hmem3 : DocFeature.docRef u ∈ localFeats s₃ u :=
                hstep.2.2.2 u (DocFeature.docRef u) hmem2
              obtain ⟨d₃, hd₃⟩ := Option.isSome_iff_exists.mp hpres3
              refine ⟨{ d₃ with doneResolving := true }, ?_, rfl, ?_⟩
              · unfold markDone
                rw [getDoc_updateDoc_self, hd₃]
                rfl
              · show DocFeature.docRef u ∈ d₃.localFeatures
                unfold localFeats at hmem3
                rw [hd₃] at hmem3
                exact hmem3

/-- Witness for claim C3: the fatal error on a done document, the
unchanged early return on a begun document, and successful terminating
resolution of a document in a cyclic two-document import graph. -/
theorem claim_C3_witness :
    resolveDocument doneState "a" =
      some (Except.error "resolve can only be called once") ∧
    resolveDocument begunState "a" = some (Except.ok begunState) ∧
    (∃ s', resolveDocument cycState "a" = some (Except.ok s') ∧
      ∃ d', getDoc s' "a" = some d' ∧ d'.doneResolving = true ∧
        DocFeature.docRef "a" ∈ d'.localFeatures) :=
  ⟨claim_C3_resolve_three_state.1 doneState "a"
      ⟨"html", false, [], true, true, [DocFeature.docRef "a"], none, none⟩ (by decide) (by decide),
    claim_C3_resolve_three_state.2.1 begunState "a"
      ⟨"html", false, [], true, false, [DocFeature.docRef "a"], none, none⟩ (by decide) (by decide)
      (by decide),
    claim_C3_resolve_three_state.2.2 cycState "a"
      ⟨"html", false, [ScannedFeat.imp "html-import" "b" 0], false, false, [], none, none⟩
      (by decide) (by decide) (by decide)⟩

/-- Claim C4: the two query indexes are only ever built once the document
is done resolving — `_buildIndexes` fails on a document not yet done, fails
when the indexes already exist, a successful build happens exactly in the
done-and-unbuilt state and makes a second build fail (built at most once) —
and consequently, once a document is done resolving, repeated `getByKind`
calls agree and the second call leaves the state untouched. -/
theorem claim_C4_index_lifecycle :
    (∀ (s : AnalyzerState) (u : Url) (d : DocState),
        getDoc s u = some d → d.doneResolving = false →
        ∃ m, buildIndexes s u = Except.error m) ∧
    (∀ (s : AnalyzerState) (u : Url) (d : DocState) (fbk : List (String × List DocFeature)),
        getDoc s u = some d → d.featuresByKind = some fbk →
        ∃ m, buildIndexes s u = Except.error m) ∧
    (∀ (s : AnalyzerState) (u : Url) (d : DocState) (s' : AnalyzerState),
        getDoc s u = some d → buildIndexes s u = Except.ok s' →
        d.doneResolving = true ∧ d.featuresByKind = none) ∧
    (∀ (s : AnalyzerState) (u : Url) (d : DocState) (s' : AnalyzerState),
        getDoc s u = some d → buildIndexes s u = Except.ok s' →
        ∃ m, buildIndexes s' u = Except.error m) ∧
    (∀ (s : AnalyzerState) (u : Url) (d : DocState) (k : String),
        getDoc s u = some d → d.doneResolving = true →
        (getByKindS s u k).1 = (getByKindS ((getByKindS s u k).2) u k).1 ∧
        (getByKindS ((getByKindS s u k).2) u k).2 = (getByKindS s u k).2) := by
  refine ⟨?_, ?_, ?_, ?_, ?_⟩
  · intro s u d hd hdone
    unfold buildIndexes
    rw [hd]
    simp only [hdone]
    cases hk : d.featuresByKind.isSome
    · simp [hk]
    · simp [hk]
  · intro s u d fbk hd hfbk
    unfold buildIndexes
    rw [hd]
    simp [hfbk]
  · intro s u d s' hd hok
    unfold buildIndexes at hok
    rw [hd] at hok
    simp only at hok
    by_cases hk : d.featuresByKind.isSome = true
    · rw [if_pos hk] at hok; exact absurd hok (by simp)
    · rw [if_neg hk] at hok
      by_cases hdone : d.doneResolving = true
      · refine ⟨hdone, ?_⟩
        cases hx : d.featuresByKind with
        | none => rfl
        | some v => rw [hx] at hk; simp at hk
      · have : (!d.doneResolving) = true := by
          cases hdn : d.doneResolving
          · rfl
          · exact absurd hdn hdone
        rw [if_pos this] at hok
        exact absurd hok (by simp)
  · intro s u d s' hd hok
    unfold buildIndexes at hok
    rw [hd] at hok
    simp only at hok
    by_cases hk : d.featuresByKind.isSome = true
    · rw [if_pos hk] at hok; exact absurd hok (by simp)
    · rw [if_neg hk] at hok
      by_cases hdone : d.doneResolving = true
      · have hs' : s' = buildIndexesCore s u := by
          rw [hdone] at hok
          simpa using hok.symm
        subst hs'
        have hfbk' : (getDoc (buildIndexesCore s u) u).isSome = true := by
          unfold buildIndexesCore
          apply updateDoc_presence
          rw [hd]; rfl
        unfold buildIndexes
        unfold buildIndexesCore
        rw [getDoc_updateDoc_self, hd]
        simp only [Option.map_some']
        rw [if_pos (foldl_indexFeatureD_fbk_isSome (getFeatures s u)
          { d with featuresByKind := some [], featuresByKindAndId := some [] } rfl)]
        exact ⟨_, rfl⟩
      · have : (!d.doneResolving) = true := by
          cases hdn : d.doneResolving
          · rfl
          · exact absurd hdn hdone
        rw [if_pos this] at hok
        exact absurd hok (by simp)
  · intro s u d k hd hdone
    cases hfbk : d.featuresByKind with
    | some fbk =>
      have h1 : getByKindS s u k = (lookupFbk fbk k, s) := by
        unfold getByKindS
        rw [hd]
        simp only
        rw [hfbk]
      rw [h1]
      simp only
      rw [h1]
      exact ⟨rfl, rfl⟩
    | none =>
      have hfbk2 : (getDoc (buildIndexesCore s u) u) =
          some ((getFeatures s u).foldl (fun d f => indexFeatureD s f d)
            { d with featuresByKind := some [], featuresByKindAndId := some [] }) := by
        unfold buildIndexesCore
        rw [getDoc_updateDoc_self, hd]
        rfl
      obtain ⟨fbkB, hfbkB⟩ := Option.isSome_iff_exists.mp
        (foldl_indexFeatureD_fbk_isSome (s := s) (getFeatures s u)
          { d with featuresByKind := some [], featuresByKindAndId := some [] } rfl)
      have h1 : getByKindS s u k = (lookupFbk fbkB k, buildIndexesCore s u) := by
        unfold getByKindS
        rw [hd]
        simp only
        rw [hfbk]
        simp only [hdone, if_true]
        rw [hfbk2]
        simp only
        rw [hfbkB]
      have h2 : getByKindS (buildIndexesCore s u) u k =
          (lookupFbk fbkB k, buildIndexesCore s u) := by
        unfold getByKindS
        rw [hfbk2]
        simp only
        rw [hfbkB]
      rw [h1]
      simp only
      rw [h2]
      exact ⟨rfl, rfl⟩

/-- Witness for claim C4 at concrete states: a not-done document rejects
the build, a successful build on a done document rejects a second build,
and repeated kind queries on a done document agree. -/
theorem claim_C4_witness :
    (∃ m, buildIndexes begunState "a" = Except.error m) ∧
    (∀ s', getDoc doneState "a" =
        some ⟨"html", false, [], true, true, [DocFeature.docRef "a"], none, none⟩ →
      buildIndexes doneState "a" = Except.ok s' →
      ∃ m, buildIndexes s' "a" = Except.error m) ∧
    ((getByKindS doneState "a" "document").1 =
        (getByKindS ((getByKindS doneState "a" "document").2) "a" "document").1 ∧
      (getByKindS ((getByKindS doneState "a" "document").2) "a" "document").2 =
        (getByKindS doneState "a" "document").2) :=
  ⟨claim_C4_index_lifecycle.1 begunState "a"
      ⟨"html", false, [], true, false, [DocFeature.docRef "a"], none, none⟩
      (by decide) (by decide),
    fun s' _ hok => claim_C4_index_lifecycle.2.2.2.1 doneState "a"
      ⟨"html", false, [], true, true, [DocFeature.docRef "a"], none, none⟩ s'
      (by decide) hok,
    claim_C4_index_lifecycle.2.2.2.2 doneState "a"
      ⟨"html", false, [], true, true, [DocFeature.docRef "a"], none, none⟩ "document"
      (by decide) (by decide)⟩

/-- Claim C10: `getOnlyAtId` returns the unique matching feature when the
kind-and-identifier query finds exactly one, returns nothing when it finds
none, and throws an error — rather than attaching a warning — when it finds
more than one. -/
theorem claim_C10_getOnlyAtId_cases :
    ∀ (s : AnalyzerState) (u : Url) (kind id : String),
      (1 < ((getByIdS s u kind id).1).length →
        ∃ m, getOnlyAtId s u kind id = Except.error m) ∧
      (∀ f, (getByIdS s u kind id).1 = [f] →
        getOnlyAtId s u kind id = Except.ok (some f, (getByIdS s u kind id).2)) ∧
      ((getByIdS s u kind id).1 = [] →
        getOnlyAtId s u kind id = Except.ok (none, (getByIdS s u kind id).2)) := by
  intro s u kind id
  refine ⟨?_, ?_, ?_⟩
  · intro hlen
    unfold getOnlyAtId
    rcases hp : getByIdS s u kind id with ⟨results, s₂⟩
    rw [hp] at hlen
    simp only at hlen
    simp only [if_pos hlen]
    exact ⟨_, rfl⟩
  · intro f hone
    unfold getOnlyAtId
    rcases hp : getByIdS s u kind id with ⟨results, s₂⟩
    rw [hp] at hone
    simp only at hone
    subst hone
    simp [hp]
  · intro hnil
    unfold getOnlyAtId
    rcases hp : getByIdS s u kind id with ⟨results, s₂⟩
    rw [hp] at hnil
    simp only at hnil
    subst hnil
    simp [hp]

/-- Witness for claim C10: the unique-match, no-match and multiple-match
cases at concrete resolved documents. -/
theorem claim_C10_witness :
    (∀ f, (getByIdS oneElementState "a" "element" "x-el").1 = [f] →
      getOnlyAtId oneElementState "a" "element" "x-el" =
        Except.ok (some f, (getByIdS oneElementState "a" "element" "x-el").2)) ∧
    ((getByIdS oneElementState "a" "element" "nope").1 = [] →
      getOnlyAtId oneElementState "a" "element" "nope" =
        Except.ok (none, (getByIdS oneElementState "a" "element" "nope").2)) ∧
    (1 < ((getByIdS twoElementState "a" "element" "x-el").1).length →
      ∃ m, getOnlyAtId twoElementState "a" "element" "x-el" = Except.error m) :=
  ⟨(claim_C10_getOnlyAtId_cases oneElementState "a" "element" "x-el").2.1,
    (claim_C10_getOnlyAtId_cases oneElementState "a" "element" "nope").2.2,
    (claim_C10_getOnlyAtId_cases twoElementState "a" "element" "x-el").1⟩

/-- Claim C6: a databinding extracted from an attribute value is classified
as an attribute binding exactly when it spans the entire value — the
expression starts at string index 2 (the opener sits at offset 0) and the
closer ends at the value's last character — and is otherwise classified as
string interpolation; every databinding extracted from a text node is
classified as string interpolation. -/
theorem claim_C6_databindingInto_classification :
    (∀ (value : List Char) (b : ScannedDatabindingExpression),
        b ∈ extractDataBindingsFromAttr value →
        (b.databindingInto = DatabindingInto.intoAttribute ↔
          (b.startIndex = 2 ∧ b.endIndex + 2 = value.length))) ∧
    (∀ (text : List Char) (b : ScannedDatabindingExpression),
        b ∈ extractDataBindingsFromTextNode text →
        b.databindingInto = DatabindingInto.intoStringInterpolation) := by
  constructor
  · intro value b hb
    unfold extractDataBindingsFromAttr at hb
    split at hb
    · simp at hb
    · obtain ⟨db, _, rfl⟩ := List.mem_map.mp hb
      unfold attrDatabindingExpression
      by_cases hfull : (db.startIndex == 2 && db.endIndex + 2 == value.length) = true
      · simp only [Bool.and_eq_true, beq_iff_eq] at hfull
        simp [hfull]
      · simp only [Bool.and_eq_true, beq_iff_eq, not_and_or] at hfull
        have : ¬ (db.startIndex = 2 ∧ db.endIndex + 2 = value.length) := by
          rcases hfull with h | h <;> intro hc <;> exact h (by simp [hc.1, hc.2])
        simp only [Bool.and_eq_true, beq_iff_eq]
        split
        · simp_all
        · simpa using this
  · intro text b hb
    unfold extractDataBindingsFromTextNode at hb
    obtain ⟨db, _, rfl⟩ := List.mem_map.mp hb
    rfl

/-- Witness for claim C6 at a full-value attribute binding and a text-node
binding. -/
theorem claim_C6_witness :
    ((attrDatabindingExpression ("\x7b\x7bfoo\x7d\x7d".toList)
        ⟨"foo".toList, 2, 5, curlyOpen⟩).databindingInto =
          DatabindingInto.intoAttribute ↔
      ((attrDatabindingExpression ("\x7b\x7bfoo\x7d\x7d".toList)
          ⟨"foo".toList, 2, 5, curlyOpen⟩).startIndex = 2 ∧
        (attrDatabindingExpression ("\x7b\x7bfoo\x7d\x7d".toList)
          ⟨"foo".toList, 2, 5, curlyOpen⟩).endIndex + 2 =
          ("\x7b\x7bfoo\x7d\x7d".toList).length)) ∧
    (ScannedDatabindingExpression.mk curlyOpen ("b".toList) none
        DatabindingInto.intoStringInterpolation 4 5).databindingInto =
      DatabindingInto.intoStringInterpolation :=
  ⟨claim_C6_databindingInto_classification.1 ("\x7b\x7bfoo\x7d\x7d".toList) _ (by decide),
    claim_C6_databindingInto_classification.2 ("a \x7b\x7bb\x7d\x7d c".toList)
      (ScannedDatabindingExpression.mk curlyOpen ("b".toList) none
        DatabindingInto.intoStringInterpolation 4 5) (by decide)⟩

/-- Claim C7 counterexample: the double-colon suffix carving does not
apply to every two-way binding, and where it applies it is not a plain
before/after split of the inner text. A text-node binding whose inner text
contains `::` keeps its text whole with no event name; and for an
attribute binding whose inner text spans a line break, the match of
`/(.*)::(.*)/` stays within the first line containing `::`, so the
expression text is not the part of the inner text before the `::` (for
inner text `a\nb::c` the scan yields expression `b`, not `a\nb`). -/
theorem claim_C7_counterexample :
    extractDataBindingsFromTextNode ("\x7b\x7bfoo::bar\x7d\x7d".toList) =
      [{ direction := curlyOpen, expressionText := "foo::bar".toList,
         eventName := none,
         databindingInto := DatabindingInto.intoStringInterpolation,
         startIndex := 2, endIndex := 10 }] ∧
    extractDataBindingsFromAttr ("\x7b\x7ba\nb::c\x7d\x7d".toList) =
      [{ direction := curlyOpen, expressionText := "b".toList,
         eventName := some ("c".toList),
         databindingInto := DatabindingInto.intoAttribute,
         startIndex := 2, endIndex := 8 }] := by decide

/-- Claim C7 (amended): the double-colon suffix carving applies to
databindings extracted from attribute values only, and only a two-way
binding is carved; the match of the carving regular expression
`/(.*)::(.*)/` lies within the first line-terminator-free run of the
inner text that contains `::` (a dot matches no line terminator), and
within that run the greedy first group splits it at its last `::`: the
expression text is that run up to its last `::` and the event name is the
rest of the run, which contains no further `::`. A two-way binding none of
whose lines contains `::` and every one-way binding keep their text whole
with no event name, and databindings extracted from text nodes are never
carved: their expression text is the raw inner text and their event name
is always empty. -/
theorem claim_C7_event_name_carving :
    (∀ (value : List Char) (b : ScannedDatabindingExpression),
        b ∈ extractDataBindingsFromAttr value →
        ∃ db, db ∈ findDatabindingInString value ∧
          b = attrDatabindingExpression value db ∧
          (b.direction = curlyOpen →
            (b.expressionText, b.eventName) = carveEventName db.expressionText) ∧
          (b.direction ≠ curlyOpen →
            b.expressionText = db.expressionText ∧ b.eventName = none)) ∧
    (∀ (t t₁ ev : List Char), carveEventName t = (t₁, some ev) →
        ∃ l, (splitLines t).find? (fun l => (lastColonPair l).isSome) = some l ∧
          l = t₁ ++ ':' :: ':' :: ev ∧ (∀ m, isColonPairAt ev m = false) ∧
          ∀ c ∈ l, isLineTerm c = false) ∧
    (∀ (t : List Char), (carveEventName t).2 = none →
        ∀ l ∈ splitLines t, ∀ m, isColonPairAt l m = false) ∧
    (∀ (text : List Char) (b : ScannedDatabindingExpression),
        b ∈ extractDataBindingsFromTextNode text →
        b.eventName = none ∧ ∃ db, db ∈ findDatabindingInString text ∧
          b.expressionText = db.expressionText) := by
  refine ⟨?_, fun t t₁ ev h => carveEventName_some h,
    fun t h => carveEventName_none h, ?_⟩
  · intro value b hb
    unfold extractDataBindingsFromAttr at hb
    split at hb
    · simp at hb
    · obtain ⟨db, hdb, rfl⟩ := List.mem_map.mp hb
      refine ⟨db, hdb, rfl, ?_, ?_⟩
      · intro hdir
        have hdir' : db.direction = curlyOpen := hdir
        simp [attrDatabindingExpression, hdir']
      · intro hdir
        have hdir' : ¬ db.direction = curlyOpen := hdir
        simp [attrDatabindingExpression, hdir']
  · intro text b hb
    unfold extractDataBindingsFromTextNode at hb
    obtain ⟨db, hdb, rfl⟩ := List.mem_map.mp hb
    exact ⟨rfl, db, hdb, rfl⟩

/-- Witness for claim C7: a carved attribute binding at a concrete input,
and the carving law at a concrete two-line inner text, where the carve
stays within the second line. -/
theorem claim_C7_witness :
    (∃ db, db ∈ findDatabindingInString ("\x7b\x7bfoo::bar\x7d\x7d".toList) ∧
      attrDatabindingExpression ("\x7b\x7bfoo::bar\x7d\x7d".toList)
          ⟨"foo::bar".toList, 2, 10, curlyOpen⟩ =
        attrDatabindingExpression ("\x7b\x7bfoo::bar\x7d\x7d".toList) db ∧
      ((attrDatabindingExpression ("\x7b\x7bfoo::bar\x7d\x7d".toList)
          ⟨"foo::bar".toList, 2, 10, curlyOpen⟩).direction = curlyOpen →
        ((attrDatabindingExpression ("\x7b\x7bfoo::bar\x7d\x7d".toList)
            ⟨"foo::bar".toList, 2, 10, curlyOpen⟩).expressionText,
          (attrDatabindingExpression ("\x7b\x7bfoo::bar\x7d\x7d".toList)
            ⟨"foo::bar".toList, 2, 10, curlyOpen⟩).eventName) =
          carveEventName db.expressionText) ∧
      ((attrDatabindingExpression ("\x7b\x7bfoo::bar\x7d\x7d".toList)
          ⟨"foo::bar".toList, 2, 10, curlyOpen⟩).direction ≠ curlyOpen →
        (attrDatabindingExpression ("\x7b\x7bfoo::bar\x7d\x7d".toList)
            ⟨"foo::bar".toList, 2, 10, curlyOpen⟩).expressionText =
          db.expressionText ∧
        (attrDatabindingExpression ("\x7b\x7bfoo::bar\x7d\x7d".toList)
            ⟨"foo::bar".toList, 2, 10, curlyOpen⟩).eventName = none)) ∧
    (∃ l, (splitLines ("a\nb::c".toList)).find?
        (fun l => (lastColonPair l).isSome) = some l ∧
      l = "b".toList ++ ':' :: ':' :: "c".toList ∧
      (∀ m, isColonPairAt ("c".toList) m = false) ∧
      ∀ c ∈ l, isLineTerm c = false) :=
  ⟨claim_C7_event_name_carving.1 ("\x7b\x7bfoo::bar\x7d\x7d".toList)
      (attrDatabindingExpression ("\x7b\x7bfoo::bar\x7d\x7d".toList)
        ⟨"foo::bar".toList, 2, 10, curlyOpen⟩) (by decide),
    claim_C7_event_name_carving.2.1 ("a\nb::c".toList) "b".toList
      "c".toList (by decide)⟩

/-- Claim C8: the databinding string scan looks for the closer matching the
opener it found; when no closer follows, that opener yields no expression
and the scan of the whole string stops — in particular the unclosed string
of one one-way opener produces zero expressions (and the scan produces no
warnings at all: its result type carries none). -/
theorem claim_C8_unclosed_opener_stops_scan :
    findDatabindingInString ("[[x".toList) = [] ∧
    (∀ (fuel : Nat) (s : List Char) (i j : Nat) (dir : Char),
      findOpenerFrom s i = some (j, dir) →
      indexOfPairFrom s (closerFor dir) (closerFor dir) (j + 2) = none →
      findDatabindingFromAux fuel s i = []) := by
  refine ⟨by decide, ?_⟩
  intro fuel s i j dir h₁ h₂
  cases fuel with
  | zero => rfl
  | succ n => simp [findDatabindingFromAux, h₁, h₂]

/-- Witness for claim C8: a string whose first opener has no closer stops
the scan even though a later well-formed binding follows. -/
theorem claim_C8_witness :
    findDatabindingFromAux 9 ("[[x \x7b\x7by\x7d\x7d".toList) 0 = [] :=
  claim_C8_unclosed_opener_stops_scan.2 9 ("[[x \x7b\x7by\x7d\x7d".toList) 0 0 '['
    (by decide) (by decide)

/-- Claim C9: evaluating the embedded `canLoad` at the parse of
`file://host/foo.html` (protocol `file:`, hostname `host`) returns false,
while the claim's predicate — scheme is the file scheme or no host, path
does not escape — accepts it; the hostless parse of `file:///foo.html` is
accepted by both. The source compares the parsed protocol against the bare
text `file`, which the node URL parser never produces (it always includes
the trailing colon), so the file-scheme disjunct is dead code. -/
theorem claim_C9_file_host_divergence :
    fsCanLoad ⟨some "file:", some "host", some "/foo.html"⟩ = false ∧
    specCanLoad ⟨some "file:", some "host", some "/foo.html"⟩ = true ∧
    fsCanLoad ⟨some "file:", some "", some "/foo.html"⟩ = true ∧
    fsCanLoad ⟨none, none, some "../secret"⟩ = false := by decide

/-- Claim C1 counterexample: scanning the assignment with the non-literal
subscript (the `DynamicNamespace[baz]` target) and no naming annotation
yields a thrown error — not a structured warning — whose message contains
`Unable to determine name for @namespace`, exactly as the scanner's test
asserts; so the analysis does not produce a warning here and an exception
does escape. -/
theorem claim_C1_counterexample :
    scanNamespaceAssignment none
        (JsTarget.indexDyn (JsTarget.ident "DynamicNamespace") "baz") =
      Except.error "Unable to determine name for @namespace." ∧
    containsSeq ("Unable to determine name for @namespace".toList)
      ("Unable to determine name for @namespace.".toList) = true :=
  ⟨rfl, by decide⟩

/-- Claim C1 (amended): for an assignment whose target has a non-literal
subscript and that no namespace annotation names, the namespace scan fails
with a thrown error whose message contains
`Unable to determine name for @namespace`; the failure escapes as an
exception rather than being recorded as a structured warning. -/
theorem claim_C1_dynamic_namespace_error :
    ∀ (t : JsTarget), hasDynamicIndex t = true →
      ∃ msg, scanNamespaceAssignment none t = Except.error msg ∧
        containsSeq ("Unable to determine name for @namespace".toList)
          msg.toList = true := by
  intro t ht
  refine ⟨"Unable to determine name for @namespace.", ?_, by decide⟩
  unfold scanNamespaceAssignment
  rw [show (none <|> targetName t) = targetName t from rfl,
    targetName_none_of_dynamic ht]

/-- Witness for claim C1 at the dynamic target of the scanner's test. -/
theorem claim_C1_witness :
    ∃ msg, scanNamespaceAssignment none
        (JsTarget.indexDyn (JsTarget.ident "DynamicNamespace") "baz") =
        Except.error msg ∧
      containsSeq ("Unable to determine name for @namespace".toList)
        msg.toList = true :=
  claim_C1_dynamic_namespace_error
    (JsTarget.indexDyn (JsTarget.ident "DynamicNamespace") "baz") (by decide)

/-- Claim C2 counterexample: a scanned reference without a source range
whose scope lookup and global lookup both fail resolves to a reference
with no feature and, contrary to the claim, no warning at all — the source
pushes the could-not-resolve warning only under `if (this.sourceRange)`. -/
theorem claim_C2_counterexample :
    resolveWithKind ⟨"element", "x-foo", none, [], none⟩ ⟨[], []⟩ "element" =
      ⟨"x-foo", none, none, []⟩ := by decide

/-- Claim C2 (amended): for a scanned reference whose scope-based lookup
fails and which carries a source range, `resolveWithKind` queries the
document's transitive feature set by kind and identifier; an empty result
attaches the could-not-resolve-reference warning (whose message carries
the behavior hint exactly when the requested kind is `behavior`), a result
with more than one feature attaches the multiple-global-declarations
warning, and in every case the returned reference holds the first query
result (or nothing) — a reference is always returned since the resolver is
a total function. -/
theorem claim_C2_global_lookup_warnings :
    ∀ (r : ScannedReferenceM) (d : RefDocument) (kind : String)
      (sr : SourceRangeM),
      r.binding.bind (fun b => resolveBinding b d kind) = none →
      r.sourceRange = some sr →
      (resolveWithKind r d kind).feature = (getFeaturesKindId d kind r.identifier).head? ∧
      (getFeaturesKindId d kind r.identifier = [] →
        (resolveWithKind r d kind).warnings = r.warnings ++
          [{ code := "could-not-resolve-reference",
             message := "Could not resolve reference to " ++ r.kind ++ behaviorHint kind,
             sourceRange := sr, severity := SeverityM.warning }]) ∧
      (1 < (getFeaturesKindId d kind r.identifier).length →
        (resolveWithKind r d kind).warnings = r.warnings ++
          [{ code := "multiple-global-declarations",
             message := "Multiple global declarations of " ++ r.kind ++
               " with identifier " ++ r.identifier,
             sourceRange := sr, severity := SeverityM.warning }]) ∧
      ((getFeaturesKindId d kind r.identifier).length = 1 →
        (resolveWithKind r d kind).warnings = r.warnings) ∧
      behaviorHint "behavior" = ". Is it annotated with @polymerBehavior?" ∧
      (kind ≠ "behavior" → behaviorHint kind = "") := by
  intro r d kind sr hscope hsr
  unfold resolveWithKind
  rw [hscope, hsr]
  refine ⟨rfl, ?_, ?_, ?_, by decide, fun h => if_neg h⟩
  · intro hempty
    simp [hempty]
  · intro hmany
    have h0 : ¬ (getFeaturesKindId d kind r.identifier).length = 0 := by omega
    simp only [h0, if_false, hmany, if_true]
  · intro hone
    have h0 : ¬ (getFeaturesKindId d kind r.identifier).length = 0 := by omega
    have h1 : ¬ 1 < (getFeaturesKindId d kind r.identifier).length := by omega
    simp [h0, h1]

/-- Witness for claim C2: an unresolvable behavior reference with a source
range gets the could-not-resolve warning with the behavior hint. -/
theorem claim_C2_witness :
    (resolveWithKind ⟨"behavior", "MyBehavior", some ⟨3, 7⟩, [], none⟩
        ⟨[], []⟩ "behavior").feature =
      (getFeaturesKindId ⟨[], []⟩ "behavior" "MyBehavior").head? ∧
    (getFeaturesKindId ⟨[], []⟩ "behavior" "MyBehavior" = [] →
      (resolveWithKind ⟨"behavior", "MyBehavior", some ⟨3, 7⟩, [], none⟩
          ⟨[], []⟩ "behavior").warnings = [] ++
        [{ code := "could-not-resolve-reference",
           message := "Could not resolve reference to " ++ "behavior" ++
             behaviorHint "behavior",
           sourceRange := ⟨3, 7⟩, severity := SeverityM.warning }]) ∧
    (1 < (getFeaturesKindId ⟨[], []⟩ "behavior" "MyBehavior").length →
      (resolveWithKind ⟨"behavior", "MyBehavior", some ⟨3, 7⟩, [], none⟩
          ⟨[], []⟩ "behavior").warnings = [] ++
        [{ code := "multiple-global-declarations",
           message := "Multiple global declarations of " ++ "behavior" ++
             " with identifier " ++ "MyBehavior",
           sourceRange := ⟨3, 7⟩, severity := SeverityM.warning }]) ∧
    ((getFeaturesKindId ⟨[], []⟩ "behavior" "MyBehavior").length = 1 →
      (resolveWithKind ⟨"behavior", "MyBehavior", some ⟨3, 7⟩, [], none⟩
          ⟨[], []⟩ "behavior").warnings = []) ∧
    behaviorHint "behavior" = ". Is it annotated with @polymerBehavior?" ∧
    ("behavior" ≠ "behavior" → behaviorHint "behavior" = "") :=
  claim_C2_global_lookup_warnings ⟨"behavior", "MyBehavior", some ⟨3, 7⟩, [], none⟩
    ⟨[], []⟩ "behavior" ⟨3, 7⟩ rfl rfl

/-- Claim C5 counterexample: `simpleUrlResolve` applied to the output of
`simpleUrlRelative` does not always reproduce the target URL, even when
both URLs share scheme and host. Three failing shapes: the source carries
a query and the pathnames are equal (the empty relative reference keeps
the base query); the target is the directory of the source (the relative
reference formats as the empty string, which keeps the base path); a
source directory segment ends in an underscore that collides with the
sentinel (the sentinel strip erases the wrong character and the reference
collapses to the empty string). -/
theorem claim_C5_counterexample :
    (let f : UrlRecord := ⟨some "file:", some true, none, some "",
        some [[], ['a']], some "x=1", none⟩
     let t : UrlRecord := ⟨some "file:", some true, none, some "",
        some [[], ['a']], none, none⟩
     f.protocol = t.protocol ∧ f.host = t.host ∧
       simpleUrlResolve (simpleUrlRelative f t) f ≠ t) ∧
    (let f : UrlRecord := ⟨some "file:", some true, none, some "",
        some [[], ['a'], ['x', '.', 'h', 't', 'm', 'l']], none, none⟩
     let t : UrlRecord := ⟨some "file:", some true, none, some "",
        some [[], ['a'], []], none, none⟩
     f.protocol = t.protocol ∧ f.host = t.host ∧
       simpleUrlResolve (simpleUrlRelative f t) f ≠ t) ∧
    (let f : UrlRecord := ⟨some "file:", some true, none, some "",
        some [[], ['a'], ['x', '_'], ['f']], none, none⟩
     let t : UrlRecord := ⟨some "file:", some true, none, some "",
        some [[], ['a'], ['x']], none, none⟩
     f.protocol = t.protocol ∧ f.host = t.host ∧
       simpleUrlResolve (simpleUrlRelative f t) f ≠ t) := by
  decide

/-- Claim C5 (amended): for file URLs sharing scheme, slashes, host and
auth components, whose pathnames are absolute and normalized, where the
source URL carries no query, and where the computed relative reference is
either between equal pathnames or is a nonempty segment list not ending in
a climb, resolving the relative reference against the source URL yields
exactly the target URL. -/
theorem claim_C5_relative_right_inverse (fromU toU : UrlRecord)
    (F T : List PathSeg)
    (hproto : fromU.protocol = toU.protocol)
    (hslashes : fromU.slashes = toU.slashes)
    (hhost : fromU.host = toU.host)
    (hauth : fromU.auth = toU.auth)
    (hF : fromU.pathname = some F)
    (hT : toU.pathname = some T)
    (habsF : absNormalPath F = true)
    (habsT : absNormalPath T = true)
    (hsearch : fromU.search = none)
    (hgood : F = T ∨
      (relPathname (simpleUrlRelative fromU toU) ≠ [] ∧
        (relPathname (simpleUrlRelative fromU toU)).getLast? ≠
          some ['.', '.'])) :
    simpleUrlResolve (simpleUrlRelative fromU toU) fromU = toU := by
  by_cases hpq : fromU.pathname = toU.pathname
  · rw [simpleUrlRelative_samePath fromU toU hproto hslashes hhost hauth hpq]
    have hres : simpleUrlResolve (FileRelUrl.rel [] toU.search toU.hash) fromU =
        { fromU with
          search := if toU.search.isSome then toU.search else fromU.search,
          hash := toU.hash } := rfl
    rw [hres]
    refine UrlRecord.ext_eq _ _ hproto hslashes hauth hhost hpq ?_ rfl
    show (if toU.search.isSome then toU.search else fromU.search) = toU.search
    rw [hsearch]
    cases toU.search <;> simp
  · -- the pathnames differ: the posix-relative route
    have hFT : F ≠ T := fun h => hpq (by rw [hF, hT, h])
    rcases hgood with hft | hgood
    · exact absurd hft hFT
    obtain ⟨fr, hFeq, hfrne, hfall⟩ := absNormalPath_cases F habsF
    obtain ⟨tr, hTeq, htrne, htall⟩ := absNormalPath_cases T habsT
    have hfr : fr = fr.dropLast ++ [fr.getLast hfrne] :=
      (List.dropLast_append_getLast hfrne).symm
    have htr : tr = tr.dropLast ++ [tr.getLast htrne] :=
      (List.dropLast_append_getLast htrne).symm
    have hfrl : fr.getLast? = some (fr.getLast hfrne) :=
      List.getLast?_eq_getLast fr hfrne
    have htrl : tr.getLast? = some (tr.getLast htrne) :=
      List.getLast?_eq_getLast tr htrne
    have hfdirN : ∀ s ∈ fr.dropLast, isNormalSeg s = true := by
      by_cases hzf : fr.getLast? = some []
      · rw [if_pos hzf] at hfall
        exact hfall
      · rw [if_neg hzf] at hfall
        intro s hs
        exact hfall s ((List.dropLast_sublist fr).subset hs)
    have htbaseN : ∀ s ∈ tr.dropLast, isNormalSeg s = true := by
      by_cases hzt : tr.getLast? = some []
      · rw [if_pos hzt] at htall
        exact htall
      · rw [if_neg hzt] at htall
        intro s hs
        exact htall s ((List.dropLast_sublist tr).subset hs)
    have hlastN : tr.getLast htrne = [] ∨
        isNormalSeg (tr.getLast htrne) = true := by
      by_cases hzt : tr.getLast? = some []
      · left
        rw [htrl] at hzt
        exact Option.some.inj hzt
      · right
        rw [if_neg hzt] at htall
        exact htall _ (List.getLast_mem htrne)
    have hlast_nodot : tr.getLast htrne ≠ ['.'] ∧
        tr.getLast htrne ≠ ['.', '.'] := by
      rcases hlastN with h1 | h1
      · rw [h1]
        exact ⟨by simp, by simp⟩
      · simp only [isNormalSeg, Bool.not_eq_true', Bool.or_eq_false_iff,
          decide_eq_false_iff_not] at h1
        exact ⟨h1.1.2, h1.2⟩
    -- evaluate the posix relative computation
    have hdir : dirOf F = [] :: (fr.dropLast ++ [[]]) := by
      rw [hFeq]
      rw [show ([] : PathSeg) :: fr =
        (([] : PathSeg) :: fr.dropLast) ++ [fr.getLast hfrne] from by
          rw [List.cons_append, ← hfr]]
      rw [dirOf_concat]
      simp
    have happ : appendUnderscore T =
        [] :: (tr.dropLast ++ [tr.getLast htrne ++ ['_']]) := by
      rw [hTeq]
      rw [show ([] : PathSeg) :: tr =
        (([] : PathSeg) :: tr.dropLast) ++ [tr.getLast htrne] from by
          rw [List.cons_append, ← htr]]
      rw [appendUnderscore_concat]
      simp
    have htUN : ∀ s ∈ tr.dropLast ++ [tr.getLast htrne ++ ['_']],
        isNormalSeg s = true := by
      intro s hs
      rcases List.mem_append.mp hs with h1 | h1
      · exact htbaseN s h1
      · rw [List.mem_singleton] at h1
        rw [h1]
        exact concat_underscore_normal _
    have hresF : resolveAbs (dirOf F) = [] :: fr.dropLast := by
      rw [hdir]
      exact resolveAbs_normal_trail _ hfdirN
    have hresT : resolveAbs (appendUnderscore T) =
        [] :: (tr.dropLast ++ [tr.getLast htrne ++ ['_']]) := by
      rw [happ]
      exact resolveAbs_normal _ htUN
    have hrel := posixRelative_eval (dirOf F) (appendUnderscore T)
      fr.dropLast (tr.dropLast ++ [tr.getLast htrne ++ ['_']]) hresF hresT
    have hrel2 := simpleUrlRelative_diffPath fromU toU F T hproto hslashes
      hhost hauth hF hT hpq
    rw [hrel] at hrel2
    set tU := tr.dropLast ++ [tr.getLast htrne ++ ['_']] with htUdef
    set k := commonLen fr.dropLast tU with hkdef
    set n := fr.dropLast.length - k with hndef
    rcases hdropeq : tU.drop k with _ | ⟨c, restT⟩
    · -- nothing of the target remains after the common prefix: the
      -- reference is empty or ends in a climb, excluded by hgood
      rw [hdropeq, List.append_nil] at hrel2
      rcases hn0 : n with _ | m
      · rw [hn0, List.replicate_zero] at hrel2
        rw [show stripUnderscore [] = [] from rfl] at hrel2
        rw [if_neg (by decide)] at hrel2
        rw [hrel2] at hgood
        simp only [relPathname] at hgood
        exact absurd rfl hgood.1
      · rw [hn0, List.replicate_succ'] at hrel2
        rw [stripUnderscore_concat_keep _ _ (by decide)] at hrel2
        have hne : (List.replicate m ['.', '.'] ++ [['.', '.']] :
            List PathSeg) ≠ [[]] := by
          intro hx
          have := congrArg List.getLast? hx
          rw [List.getLast?_concat] at this
          simp at this
        rw [if_neg hne] at hrel2
        rw [hrel2] at hgood
        simp only [relPathname] at hgood
        exact absurd (by rw [List.getLast?_concat]) hgood.2
    · -- part of the target remains: the reference descends into it
      have hk_le_tU : k ≤ tU.length := commonLen_le_right _ _
      have htUlen : tU.length = tr.dropLast.length + 1 := by
        rw [htUdef]
        simp
      have hk_lt : k < tU.length := by
        have hlen := congrArg List.length hdropeq
        rw [List.length_drop] at hlen
        simp only [List.length_cons] at hlen
        omega
      have hk_tbase : k ≤ tr.dropLast.length := by omega
      have hdrop2 : tU.drop k = tr.dropLast.drop k ++
          [tr.getLast htrne ++ ['_']] := by
        rw [htUdef]
        exact List.drop_append_of_le_length hk_tbase
      rw [hdrop2, ← List.append_assoc, stripUnderscore_concat_underscore]
        at hrel2
      by_cases hbad : ((List.replicate n ['.', '.'] ++ tr.dropLast.drop k) ++
          [tr.getLast htrne] : List PathSeg) = [[]]
      · rw [if_pos hbad] at hrel2
        rw [hrel2] at hgood
        simp only [relPathname] at hgood
        exact absurd rfl hgood.1
      rw [if_neg hbad] at hrel2
      have hhead : ((List.replicate n ['.', '.'] ++ tr.dropLast.drop k) ++
          [tr.getLast htrne]).head? ≠ some ([] : PathSeg) := by
        rcases hn0 : n with _ | m
        · rw [hn0] at hbad
          rw [List.replicate_zero, List.nil_append] at hbad ⊢
          rcases hdk : tr.dropLast.drop k with _ | ⟨d0, ds⟩
          · rw [hdk] at hbad
            rw [List.nil_append] at hbad ⊢
            intro hx
            rw [show ([tr.getLast htrne] : List PathSeg).head? =
              some (tr.getLast htrne) from rfl] at hx
            exact hbad (by rw [Option.some.inj hx])
          · have hd0 : isNormalSeg d0 = true :=
              htbaseN d0 (List.mem_of_mem_drop
                (by rw [hdk]; exact List.mem_cons_self d0 ds))
            rw [List.cons_append, List.head?_cons]
            intro hx
            rw [Option.some.inj hx] at hd0
            simp [isNormalSeg] at hd0
        · rw [List.replicate_succ]
          simp
      have htake : fr.dropLast.take k = tr.dropLast.take k := by
        have h1 := commonLen_take fr.dropLast tU
        rw [← hkdef] at h1
        rw [htUdef] at h1
        rw [List.take_append_of_le_length hk_tbase] at h1
        exact h1
      have hmerge := mergePaths_eval fr.dropLast tr.dropLast
        (fr.getLast hfrne) (tr.getLast htrne) k hfdirN htbaseN hlast_nodot
        (commonLen_le_left _ _) htake
      have hmF : mergePaths F ((List.replicate n ['.', '.'] ++
          tr.dropLast.drop k) ++ [tr.getLast htrne]) = T := by
        rw [hFeq, show ([] : PathSeg) :: fr =
          [] :: (fr.dropLast ++ [fr.getLast hfrne]) from by rw [← hfr]]
        rw [List.append_assoc, hndef, hkdef]
        rw [hmerge, ← htr, ← hTeq]
      rw [hrel2]
      simp only [simpleUrlResolve, urlLibResolve]
      rw [if_neg (by simp), if_neg hhead, hF]
      simp only [Option.getD_some]
      refine UrlRecord.ext_eq _ _ hproto hslashes hauth hhost ?_ rfl rfl
      show some (mergePaths F ((List.replicate n ['.', '.'] ++
        tr.dropLast.drop k) ++ [tr.getLast htrne])) = toU.pathname
      rw [hmF, hT]

theorem claim_C5_witness :
    simpleUrlResolve
      (simpleUrlRelative
        ⟨some "file:", some true, none, some "", some [[], ['a'], ['b']],
          none, none⟩
        ⟨some "file:", some true, none, some "", some [[], ['c'], ['d']],
          some "q=1", some "frag"⟩)
      ⟨some "file:", some true, none, some "", some [[], ['a'], ['b']],
        none, none⟩ =
    ⟨some "file:", some true, none, some "", some [[], ['c'], ['d']],
      some "q=1", some "frag"⟩ :=
  claim_C5_relative_right_inverse _ _ [[], ['a'], ['b']] [[], ['c'], ['d']]
    rfl rfl rfl rfl rfl rfl (by decide) (by decide) rfl
    (Or.inr (by decide))

end Hydrolysis
